import Mathlib

/-!
Verification model of the serve-index middleware (src/index.js).

The middleware maps an HTTP request path to a directory under a configured
root, lists the directory and answers with HTML, plain text or JSON.  All
definitions below are shallow embeddings of the JavaScript source: strings
are Lean strings (lists of Unicode scalar characters), the Node `path`
module is modelled by the posix algorithms on segment lists, callback-style
fallible operations are modelled with `Except`, and the filesystem objects
are explicit function records.
-/

namespace ServeIdx

/-! ## Posix path model

Model of the Node `path.posix` functions used by the source
(`normalize`, `join`, `resolve`, `sep = "/"`), restricted to absolute
inputs, which is the only way the middleware uses them: every path fed to
them starts with the configured absolute root.  Paths are processed as
lists of characters split on the separator.
-/

/-- A path segment: the characters between two separators. -/
abbrev Seg := List Char

/-- Split a character list on the separator character, keeping empty
segments, exactly like JavaScript's `str.split('/')`. -/
def splitSlash : List Char → List Seg
  | [] => [[]]
  | c :: cs =>
    match splitSlash cs with
    | [] => [[]]
    | g :: gs => if c = '/' then [] :: g :: gs else (c :: g) :: gs

/-- One step of segment normalization: drop empty and `.` segments, pop the
accumulator on `..` (absolute semantics: `..` at the root is dropped), and
append any other segment.  This is the segment-level content of Node's
`normalizeString` for absolute posix paths. -/
def normStep (acc : List Seg) (seg : Seg) : List Seg :=
  if seg = [] ∨ seg = ['.'] then acc
  else if seg = ['.', '.'] then acc.dropLast
  else acc ++ [seg]

/-- Normalize a list of raw segments (absolute-path semantics). -/
def normSegs (l : List Seg) : List Seg := l.foldl normStep []

/-- Concatenate segments with `/` between them (no leading separator). -/
def catSegs : List Seg → List Char
  | [] => []
  | [g] => g
  | g :: g2 :: rest => g ++ '/' :: catSegs (g2 :: rest)

/-- Rebuild an absolute path from normalized segments: a leading `/`
followed by the segments joined with `/`. -/
def joinSegsCh (segs : List Seg) : List Char := '/' :: catSegs segs

/-- Whether a character list ends with the separator. -/
def endsSlash (l : List Char) : Bool := l.getLast? == some '/'

/-- Node `path.posix.normalize` on an absolute path: resolve `.` and `..`
segments, collapse repeated separators, keep one trailing separator when
the input had one and the result is not the bare root. -/
def normalizeAbsCh (p : List Char) : List Char :=
  let segs := normSegs (splitSlash p)
  if endsSlash p ∧ segs ≠ [] then joinSegsCh segs ++ ['/'] else joinSegsCh segs

/-- Node `path.posix.resolve` on a single absolute argument: like
`normalize` but never keeps a trailing separator. -/
def resolveAbsCh (p : List Char) : List Char := joinSegsCh (normSegs (splitSlash p))

/-- String-level `path.posix.normalize` (absolute inputs). -/
def posixNormalizeAbs (s : String) : String := String.mk (normalizeAbsCh s.data)

/-- String-level `path.posix.resolve` of one absolute argument. -/
def posixResolveAbs (s : String) : String := String.mk (resolveAbsCh s.data)

/-- Node `path.posix.join a b` for nonempty `a`: concatenate with a
separator and normalize. -/
def posixJoin (a b : String) : String := posixNormalizeAbs (a ++ "/" ++ b)

/-- The constructor's root computation (src/index.js line 95):
`path.normalize(path.resolve(root) + path.sep)`, for an absolute
configured `root` (for a relative root Node's `resolve` would consult the
process working directory, which is outside this model). -/
def mkRootPath (root : String) : String :=
  posixNormalizeAbs (posixResolveAbs root ++ "/")

/-- JavaScript `~path.indexOf('\0')`: whether the path holds a NUL byte
(src/index.js line 128). -/
def hasNull (s : String) : Bool := s.data.contains (Char.ofNat 0)

/-- JavaScript `(path + sep).substr(0, rootPath.length) === rootPath`
(src/index.js line 131): a literal string-prefix comparison. -/
def strIsPrefixOf (pre s : String) : Bool := pre.data.isPrefixOf s.data

/-- The `showUp` computation (src/index.js line 137):
`path.normalize(path.resolve(p) + sep) !== rootPath`. -/
def showUpFlag (rootPath p : String) : Bool :=
  posixNormalizeAbs (posixResolveAbs p ++ "/") != rootPath

/-- String-level split on `/`, JavaScript `str.split('/')`. -/
def splitSlashStr (s : String) : List String := (splitSlash s.data).map String.mk

/-- `normalizeSlashes` (src/index.js lines 481-483): replace the platform
separator by the URL separator.  With the posix separator this splits on
`/` and joins with `/` again. -/
def normalizeSlashes (p : String) : String :=
  String.intercalate "/" (splitSlashStr p)

/-- A well-formed normalized segment: nonempty, not a dot segment, and
separator-free.  `normSegs` only produces such segments. -/
def WfSeg (g : Seg) : Prop := g ≠ [] ∧ g ≠ ['.'] ∧ g ≠ ['.', '.'] ∧ '/' ∉ g

/-- All segments of a list are well formed. -/
def WfSegs (l : List Seg) : Prop := ∀ g ∈ l, WfSeg g

/-! ## Percent decoding and encoding

Model of the ECMAScript builtins `decodeURIComponent` and
`encodeURIComponent` used by the source (src/index.js lines 121-122, 264,
284, 354).  `decodeURIComponent` throws a `URIError` on a malformed escape
sequence or invalid UTF-8; the model returns `none` in that case.
-/

/-- Value of one hexadecimal digit, or `none`. -/
def hexVal (c : Char) : Option Nat :=
  if '0' ≤ c ∧ c ≤ '9' then some (c.toNat - '0'.toNat)
  else if 'a' ≤ c ∧ c ≤ 'f' then some (c.toNat - 'a'.toNat + 10)
  else if 'A' ≤ c ∧ c ≤ 'F' then some (c.toNat - 'A'.toNat + 10)
  else none

/-- A token of a percent-encoded string: a plain character or one decoded
escape byte. -/
inductive PctTok where
  | raw (c : Char)
  | byte (b : Nat)
deriving DecidableEq

/-- Tokenize a percent-encoded string; `none` when a `%` is not followed by
two hexadecimal digits (this is where `decodeURIComponent` throws). -/
def pctTokens : List Char → Option (List PctTok)
  | [] => some []
  | '%' :: h1 :: h2 :: rest =>
    match hexVal h1, hexVal h2 with
    | some a, some b => (pctTokens rest).map (PctTok.byte (16 * a + b) :: ·)
    | _, _ => none
  | '%' :: _ :: [] => none
  | '%' :: [] => none
  | c :: rest => (pctTokens rest).map (PctTok.raw c :: ·)

/-- Whether a byte is a UTF-8 continuation byte. -/
def isCont (b : Nat) : Bool := 0x80 ≤ b ∧ b ≤ 0xBF

/-- Reassemble decoded escape bytes into characters, strict UTF-8 with the
usual overlong / surrogate / range checks; plain characters pass through.
`none` models the `URIError` thrown on an invalid byte sequence. -/
def utf8Assemble : List PctTok → Option (List Char)
  | [] => some []
  | .raw c :: rest => (utf8Assemble rest).map (c :: ·)
  | .byte b :: rest =>
    if b < 0x80 then (utf8Assemble rest).map (Char.ofNat b :: ·)
    else if 0xC2 ≤ b ∧ b ≤ 0xDF then
      match rest with
      | .byte b2 :: rest2 =>
        if isCont b2 then
          (utf8Assemble rest2).map (Char.ofNat ((b - 0xC0) * 64 + (b2 - 0x80)) :: ·)
        else none
      | _ => none
    else if 0xE0 ≤ b ∧ b ≤ 0xEF then
      match rest with
      | .byte b2 :: .byte b3 :: rest2 =>
        if isCont b2 ∧ isCont b3 ∧ (b ≠ 0xE0 ∨ 0xA0 ≤ b2) ∧ (b ≠ 0xED ∨ b2 ≤ 0x9F) then
          (utf8Assemble rest2).map
            (Char.ofNat ((b - 0xE0) * 4096 + (b2 - 0x80) * 64 + (b3 - 0x80)) :: ·)
        else none
      | _ => none
    else if 0xF0 ≤ b ∧ b ≤ 0xF4 then
      match rest with
      | .byte b2 :: .byte b3 :: .byte b4 :: rest2 =>
        if isCont b2 ∧ isCont b3 ∧ isCont b4 ∧ (b ≠ 0xF0 ∨ 0x90 ≤ b2) ∧ (b ≠ 0xF4 ∨ b2 ≤ 0x8F) then
          (utf8Assemble rest2).map
            (Char.ofNat ((b - 0xF0) * 262144 + (b2 - 0x80) * 4096 + (b3 - 0x80) * 64 + (b4 - 0x80)) :: ·)
        else none
      | _ => none
    else none

/-- `decodeURIComponent`: `none` models a thrown `URIError`. -/
def decodeURIComponent (s : String) : Option String :=
  match pctTokens s.data with
  | none => none
  | some toks =>
    match utf8Assemble toks with
    | none => none
    | some cs => some (String.mk cs)

/-- Uppercase hexadecimal digit for a value below 16. -/
def hexDigit (n : Nat) : Char :=
  if n < 10 then Char.ofNat ('0'.toNat + n) else Char.ofNat ('A'.toNat + n - 10)

/-- UTF-8 bytes of one character (scalar value). -/
def utf8Bytes (c : Char) : List Nat :=
  let n := c.toNat
  if n < 0x80 then [n]
  else if n < 0x800 then [0xC0 + n / 64, 0x80 + n % 64]
  else if n < 0x10000 then [0xE0 + n / 4096, 0x80 + n / 64 % 64, 0x80 + n % 64]
  else [0xF0 + n / 262144, 0x80 + n / 4096 % 64, 0x80 + n / 64 % 64, 0x80 + n % 64]

/-- Characters `encodeURIComponent` leaves unescaped. -/
def uriUnescaped (c : Char) : Bool :=
  ('A' ≤ c ∧ c ≤ 'Z') ∨ ('a' ≤ c ∧ c ≤ 'z') ∨ ('0' ≤ c ∧ c ≤ '9') ∨
    c = '-' ∨ c = '_' ∨ c = '.' ∨ c = '!' ∨ c = '~' ∨ c = '*' ∨
    c = Char.ofNat 39 ∨ c = '(' ∨ c = ')'

/-- `encodeURIComponent`: escape every character outside the unescaped set
as the `%HH` form of its UTF-8 bytes, with uppercase hexadecimal. -/
def encodeURIComponent (s : String) : String :=
  String.mk (s.data.flatMap fun c =>
    if uriUnescaped c then [c]
    else (utf8Bytes c).flatMap fun b => ['%', hexDigit (b / 16), hexDigit (b % 16)])

/-! ## HTML escaping and JSON serialization -/

/-- One character of the `escape-html` module's output: `&`, `<`, `>`,
`"` and `'` become entities. -/
def escapeHtmlChar (c : Char) : List Char :=
  if c = '&' then "&amp;".data
  else if c = '<' then "&lt;".data
  else if c = '>' then "&gt;".data
  else if c = '"' then "&quot;".data
  else if c = Char.ofNat 39 then "&#39;".data
  else [c]

/-- The `escape-html` module used for every HTML interpolation. -/
def escapeHtml (s : String) : String := String.mk (s.data.flatMap escapeHtmlChar)

/-- JSON escape of one character inside a string literal, as produced by
`JSON.stringify`. -/
def jsonEscapeChar (c : Char) : List Char :=
  if c = '"' then ['\\', '"']
  else if c = '\\' then ['\\', '\\']
  else if c = Char.ofNat 8 then ['\\', 'b']
  else if c = Char.ofNat 9 then ['\\', 't']
  else if c = Char.ofNat 10 then ['\\', 'n']
  else if c = Char.ofNat 12 then ['\\', 'f']
  else if c = Char.ofNat 13 then ['\\', 'r']
  else if c.toNat < 0x20 then
    ['\\', 'u', '0', '0', hexDigit (c.toNat / 16), hexDigit (c.toNat % 16)]
  else [c]

/-- A JSON string literal for `s`. -/
def jsonQuote (s : String) : String :=
  String.mk ('"' :: s.data.flatMap jsonEscapeChar ++ ['"'])

/-- `JSON.stringify` on an array of strings (src/index.js line 237). -/
def jsonStringify (files : List String) : String :=
  "[" ++ String.intercalate "," (files.map jsonQuote) ++ "]"

/-! ## Data model -/

/-- A filesystem error as seen through Node callbacks: only its `code`
matters to the source (`ENOENT`, `ENAMETOOLONG`, ...). -/
structure FsErr where
  code : String
deriving DecidableEq

/-- The outcome of a successful `stat`: the directory flag, size and
modification time consumed by the source (`stat.isDirectory()`,
`stat.size`, `stat.mtime`). -/
structure FileStat where
  isDir : Bool
  size : Nat
  mtime : Nat
deriving DecidableEq

/-- One listing entry: a name and the optional metadata produced by
`statFiles` (`null` when the entry vanished, src/index.js line 530). -/
structure Entry where
  name : String
  stat : Option FileStat
deriving DecidableEq

/-- The configured filesystem-access object (`opts.fs || fs`,
src/index.js line 103).  The middleware only ever calls its `stat` and
`readdir` operations; `readFile` is part of the capability surface but
unused by the source. -/
structure ConfiguredFS where
  stat : String → Except FsErr FileStat
  readdir : String → Except FsErr (List String)
  readFile : String → Except FsErr String

/-- Process-level collaborators that do not come from the configured
filesystem object: the native `fs` module used for the stylesheet, the
template and the icon assets, the `mime-types` lookup table, and the
`Date` locale formatters. -/
structure Env where
  readFile : String → Except FsErr String
  iconData : String → String
  mimeLookup : String → Option String
  fmtDate : Nat → String
  fmtTime : Nat → String

/-- The middleware configuration (constructor, src/index.js lines 84-104),
with `rootPath` already resolved as `mkRootPath root`.  The template is
modelled as a file path (the function-valued template option is not
modelled). -/
structure Config where
  rootPath : String
  hidden : Bool
  filter : Option (String → Nat → List String → String → Bool)
  icons : Bool
  view : String
  stylesheet : String
  template : String

/-- A negotiated representation (src/index.js lines 61-71). -/
inductive Media where
  | html
  | plain
  | json
deriving DecidableEq

/-- What the handler does with the request: the `next(...)` calls, or a
response with a content type and body (headers other than the content type
are not modelled). -/
inductive Outcome where
  /-- `next(createError(status))` for 400, 403, 406. -/
  | clientErr (status : Nat)
  /-- `err.status = 414 | 500; next(err)` after a failed `stat` of the
  resolved path: the original error is preserved. -/
  | statErr (status : Nat) (e : FsErr)
  /-- `next(err)` with an unmodified error (readdir, statFiles, readFile,
  render failures). -/
  | passErr (e : FsErr)
  /-- `next()` with no argument: defer to the next handler. -/
  | pass
  /-- `send(res, type, body)`. -/
  | respond (ctype : String) (body : String)
deriving DecidableEq

/-! ## Stable sorting

JavaScript's `Array.prototype.sort` is a stable comparison sort.  It is
modelled by a stable insertion sort: for a comparator inducing a total
preorder, every stable sort computes the same list.
-/

/-- Insert `a` into `l` before the first element `b` with `le a b`. -/
def insertBy (le : α → α → Bool) (a : α) : List α → List α
  | [] => [a]
  | b :: bs => if le a b then a :: b :: bs else b :: insertBy le a bs

/-- Stable sort by a boolean comparator. -/
def sortBy (le : α → α → Bool) : List α → List α
  | [] => []
  | a :: as => insertBy le a (sortBy le as)

/-- JavaScript default string comparison (`files.sort()`,
src/index.js line 164): lexicographic on code units; on scalar values this
is lexicographic comparison of the character lists. -/
def strCmp : List Char → List Char → Ordering
  | [], [] => .eq
  | [], _ :: _ => .lt
  | _ :: _, [] => .gt
  | a :: as, b :: bs =>
    match compare a.toNat b.toNat with
    | .eq => strCmp as bs
    | o => o

/-- Default-comparator ordering on strings used by `files.sort()`. -/
def jsStrLe (a b : String) : Bool := strCmp a.data b.data ≠ .gt

/-- `files.sort()` with no comparator (src/index.js line 164). -/
def sortLex (files : List String) : List String := sortBy jsStrLe files

/-! ## Sorter (fileSort) -/

/-- JavaScript `String.prototype.toLocaleLowerCase`, modelled as ASCII
lowercasing of each character. -/
def toLowerStr (s : String) : String := String.mk (s.data.map Char.toLower)

/-- `String.prototype.localeCompare`, modelled for the default locale as
code-point comparison returning -1, 0 or 1. -/
def localeCompare (a b : String) : Int :=
  match strCmp a.data b.data with
  | .lt => -1
  | .eq => 0
  | .gt => 1

/-- Truthiness of `e.stat && e.stat.isDirectory()`. -/
def entryIsDir (e : Entry) : Bool :=
  match e.stat with
  | some st => st.isDir
  | none => false

/-- `fileSort` (src/index.js lines 332-341): `..` first, then directories
before non-directories, then case-insensitive name comparison. -/
def fileSort (a b : Entry) : Int :=
  if a.name = ".." ∨ b.name = ".." then
    if a.name = b.name then 0 else if a.name = ".." then -1 else 1
  else
    let d : Int := (if entryIsDir b then 1 else 0) - (if entryIsDir a then 1 else 0)
    if d ≠ 0 then d else localeCompare (toLowerStr a.name) (toLowerStr b.name)

/-- The ordering `fileList.sort(fileSort)` sorts by. -/
def fileSortLe (a b : Entry) : Bool := fileSort a b ≤ 0

/-- `fileList.sort(_self.fileSort)` (src/index.js line 208). -/
def sortEntries (l : List Entry) : List Entry := sortBy fileSortLe l

/-! ## Directory listing pipeline -/

/-- `removeHidden` (src/index.js lines 493-497): drop names whose first
character is `.` (an empty name has no first character and is kept). -/
def removeHidden (files : List String) : List String :=
  files.filter fun f => f.data.head? ≠ some '.'

/-- The configured filter application (src/index.js lines 161-163): the
predicate receives the name, its index, the whole candidate list and the
resolved directory. -/
def applyFilter (p : String → Nat → List String → String → Bool)
    (files : List String) (path : String) : List String :=
  (files.enum.filter fun ie => p ie.2 ie.1 files path).map Prod.snd

/-- The file list handed to every representation handler (src/index.js
lines 160-164): hidden filtering, the configured filter, then the plain
lexicographic `sort()`. -/
def listFiles (cfg : Config) (files0 : List String) (path : String) : List String :=
  let f1 := if cfg.hidden then files0 else removeHidden files0
  let f2 := match cfg.filter with
    | none => f1
    | some p => applyFilter p f1 path
  sortLex f2

/-- `plain` (src/index.js lines 243-245): names joined with newlines plus
a trailing newline. -/
def plainBody (files : List String) : String :=
  String.intercalate "\n" files ++ "\n"

/-! ## StatAggregator (statFiles) -/

/-- The metadata value `statFiles` stores for one entry: the stat on
success, `null` on any lookup error (only `ENOENT` can reach a stored
position; other errors abort the aggregation). -/
def statOutcome (statF : String → Except FsErr FileStat) (dir f : String) : Option FileStat :=
  match statF (posixJoin dir f) with
  | .ok st => some st
  | .error _ => none

/-- `statFiles` (src/index.js lines 519-536): one `stat` per entry through
the configured filesystem, `ENOENT` turned into a `null` stat, any other
error aborting the whole aggregation.  The `Batch` scheduling (bound 10)
delivers results positionally; the sequential model keeps that order and
reports the first fatal error. -/
def statFiles (statF : String → Except FsErr FileStat) (dir : String) :
    List String → Except FsErr (List (Option FileStat))
  | [] => .ok []
  | f :: fs =>
    match statF (posixJoin dir f) with
    | .ok st =>
      match statFiles statF dir fs with
      | .ok rest => .ok (some st :: rest)
      | .error e => .error e
    | .error e =>
      if e.code = "ENOENT" then
        match statFiles statF dir fs with
        | .ok rest => .ok (none :: rest)
        | .error e2 => .error e2
      else .error e

/-! ## Icon classification (src/index.js lines 362-459, 547-654) -/

/-- The icon map (src/index.js lines 547-654). -/
def iconsTable : List (String × String) := [
  ("default", "page_white.png"),
  ("folder", "folder.png"),
  ("font", "font.png"),
  ("image", "image.png"),
  ("text", "page_white_text.png"),
  ("video", "film.png"),
  ("+json", "page_white_code.png"),
  ("+xml", "page_white_code.png"),
  ("+zip", "box.png"),
  ("application/javascript", "page_white_code_red.png"),
  ("application/json", "page_white_code.png"),
  ("application/msword", "page_white_word.png"),
  ("application/pdf", "page_white_acrobat.png"),
  ("application/postscript", "page_white_vector.png"),
  ("application/rtf", "page_white_word.png"),
  ("application/vnd.ms-excel", "page_white_excel.png"),
  ("application/vnd.ms-powerpoint", "page_white_powerpoint.png"),
  ("application/vnd.oasis.opendocument.presentation", "page_white_powerpoint.png"),
  ("application/vnd.oasis.opendocument.spreadsheet", "page_white_excel.png"),
  ("application/vnd.oasis.opendocument.text", "page_white_word.png"),
  ("application/x-7z-compressed", "box.png"),
  ("application/x-sh", "application_xp_terminal.png"),
  ("application/x-msaccess", "page_white_database.png"),
  ("application/x-shockwave-flash", "page_white_flash.png"),
  ("application/x-sql", "page_white_database.png"),
  ("application/x-tar", "box.png"),
  ("application/x-xz", "box.png"),
  ("application/xml", "page_white_code.png"),
  ("application/zip", "box.png"),
  ("image/svg+xml", "page_white_vector.png"),
  ("text/css", "page_white_code.png"),
  ("text/html", "page_white_code.png"),
  ("text/less", "page_white_code.png"),
  (".accdb", "page_white_database.png"),
  (".apk", "box.png"),
  (".app", "application_xp.png"),
  (".as", "page_white_actionscript.png"),
  (".asp", "page_white_code.png"),
  (".aspx", "page_white_code.png"),
  (".bat", "application_xp_terminal.png"),
  (".bz2", "box.png"),
  (".c", "page_white_c.png"),
  (".cab", "box.png"),
  (".cfm", "page_white_coldfusion.png"),
  (".clj", "page_white_code.png"),
  (".cc", "page_white_cplusplus.png"),
  (".cgi", "application_xp_terminal.png"),
  (".cpp", "page_white_cplusplus.png"),
  (".cs", "page_white_csharp.png"),
  (".db", "page_white_database.png"),
  (".dbf", "page_white_database.png"),
  (".deb", "box.png"),
  (".dll", "page_white_gear.png"),
  (".dmg", "drive.png"),
  (".docx", "page_white_word.png"),
  (".erb", "page_white_ruby.png"),
  (".exe", "application_xp.png"),
  (".fnt", "font.png"),
  (".gam", "controller.png"),
  (".gz", "box.png"),
  (".h", "page_white_h.png"),
  (".ini", "page_white_gear.png"),
  (".iso", "cd.png"),
  (".jar", "box.png"),
  (".java", "page_white_cup.png"),
  (".jsp", "page_white_cup.png"),
  (".lua", "page_white_code.png"),
  (".lz", "box.png"),
  (".lzma", "box.png"),
  (".m", "page_white_code.png"),
  (".map", "map.png"),
  (".msi", "box.png"),
  (".mv4", "film.png"),
  (".pdb", "page_white_database.png"),
  (".php", "page_white_php.png"),
  (".pl", "page_white_code.png"),
  (".pkg", "box.png"),
  (".pptx", "page_white_powerpoint.png"),
  (".psd", "page_white_picture.png"),
  (".py", "page_white_code.png"),
  (".rar", "box.png"),
  (".rb", "page_white_ruby.png"),
  (".rm", "film.png"),
  (".rom", "controller.png"),
  (".rpm", "box.png"),
  (".sass", "page_white_code.png"),
  (".sav", "controller.png"),
  (".scss", "page_white_code.png"),
  (".srt", "page_white_text.png"),
  (".tbz2", "box.png"),
  (".tgz", "box.png"),
  (".tlz", "box.png"),
  (".vb", "page_white_code.png"),
  (".vbs", "page_white_code.png"),
  (".xcf", "page_white_picture.png"),
  (".xlsx", "page_white_excel.png"),
  (".yaws", "page_white_code.png")]

/-- Lookup in an association list by string key. -/
def assocGet (k : String) (m : List (String × α)) : Option α :=
  (m.find? fun p => p.1 == k).map Prod.snd

/-- Write a key in an association list, appending it when absent. -/
def assocSet (k : String) (v : α) : List (String × α) → List (String × α)
  | [] => [(k, v)]
  | p :: rest => if p.1 == k then (k, v) :: rest else p :: assocSet k v rest

/-- Access to the icon map, JavaScript `icons[key]`. -/
def iconsGet (k : String) : Option String := assocGet k iconsTable

/-- Scanner state of Node's `path.posix.extname`. -/
structure ExtSt where
  startDot : Option Nat
  startPart : Nat
  stop : Option Nat
  matchedSlash : Bool
  preDot : Int

/-- One right-to-left sweep of Node's `extname` scanner; the first argument
is the number of characters still to scan (the loop index plus one). -/
def extScan (cs : List Char) : Nat → ExtSt → ExtSt
  | 0, st => st
  | i + 1, st =>
    let c := cs.getD i ' '
    if c = '/' then
      if ¬ st.matchedSlash then { st with startPart := i + 1 }
      else extScan cs i st
    else
      let st := if st.stop = none then { st with matchedSlash := false, stop := some (i + 1) } else st
      let st :=
        if c = '.' then
          if st.startDot = none then { st with startDot := some i }
          else if st.preDot ≠ 1 then { st with preDot := 1 } else st
        else if st.startDot ≠ none then { st with preDot := -1 } else st
      extScan cs i st

/-- Node `path.posix.extname`: the substring from the last `.` of the base
name to its end, or the empty string for a dotless, dot-leading, `.` or
`..` base name. -/
def extname (p : String) : String :=
  let cs := p.data
  let st := extScan cs cs.length ⟨none, 0, none, true, 0⟩
  match st.startDot, st.stop with
  | some sd, some e =>
    if st.preDot = 0 ∨ (st.preDot = 1 ∧ sd = e - 1 ∧ sd = st.startPart + 1) then ""
    else String.mk ((cs.drop sd).take (e - sd))
  | _, _ => ""

/-- Generic split of a character list on one character. -/
def splitOnCh (sep : Char) : List Char → List (List Char)
  | [] => [[]]
  | c :: cs =>
    match splitOnCh sep cs with
    | [] => [[]]
    | g :: gs => if c = sep then [] :: g :: gs else (c :: g) :: gs

/-- JavaScript `str.replace('/', '-')`: replace the first occurrence. -/
def replaceFirstCh (pat rep : Char) : List Char → List Char
  | [] => []
  | c :: cs => if c = pat then rep :: cs else c :: replaceFirstCh pat rep cs

/-- An icon classification result: CSS class name plus asset file name. -/
structure IconRec where
  className : String
  fileName : String
deriving DecidableEq

/-- `iconLookup` (src/index.js lines 365-417): extension, then MIME type,
then MIME `+` suffix, then MIME top-level type, then the default icon.
The `mime-types` module is the environment's `mimeLookup`. -/
def iconLookup (env : Env) (filename : String) : IconRec :=
  let ext := extname filename
  match iconsGet ext with
  | some f => ⟨"icon-" ++ ext.drop 1, f⟩
  | none =>
    match env.mimeLookup ext with
    | none => ⟨"icon-default", "page_white.png"⟩
    | some mimetype =>
      match iconsGet mimetype with
      | some f => ⟨"icon-" ++ String.mk (replaceFirstCh '/' '-' mimetype.data), f⟩
      | none =>
        let suffix := ((splitOnCh '+' mimetype.data).map String.mk)[1]?
        match suffix with
        | some sfx =>
          if sfx ≠ "" then
            match iconsGet ("+" ++ sfx) with
            | some f => ⟨"icon-" ++ sfx, f⟩
            | none => iconLookupByType env mimetype
          else iconLookupByType env mimetype
        | none => iconLookupByType env mimetype
where
  /-- The tail of the cascade: MIME top-level type, then default. -/
  iconLookupByType (_env : Env) (mimetype : String) : IconRec :=
    let ty := String.mk (((splitOnCh '/' mimetype.data)).headD [])
    match iconsGet ty with
    | some f => ⟨"icon-" ++ ty, f⟩
    | none => ⟨"icon-default", "page_white.png"⟩

/-- Accumulator of `iconStyle`'s first loop: insertion-ordered icon list,
rule text per icon and selector list per icon. -/
structure IconAcc where
  list : List String
  rules : List (String × String)
  selectors : List (String × List String)

/-- `iconStyle` (src/index.js lines 422-459): deduplicated CSS, one rule
per distinct icon asset, selectors aggregated per asset, asset bytes read
through the process-wide cache over the native filesystem
(`load`, src/index.js lines 468-471, modelled by `env.iconData`). -/
def iconStyle (env : Env) (files : List Entry) (useIcons : Bool) : String :=
  if ¬ useIcons then "" else
  let acc := files.foldl (fun acc file =>
    let isDir := entryIsDir file
    let icon := if isDir then IconRec.mk "icon-directory" "folder.png" else iconLookup env file.name
    let iconName := icon.fileName
    let selector := "#files ." ++ icon.className ++ " .name"
    let acc :=
      if (assocGet iconName acc.rules).isNone then
        { list := acc.list ++ [iconName],
          rules := acc.rules ++
            [(iconName, "background-image: url(data:image/png;base64," ++ env.iconData iconName ++ ");")],
          selectors := acc.selectors ++ [(iconName, [])] }
      else acc
    let sels := (assocGet iconName acc.selectors).getD []
    if selector ∈ sels then acc
    else { acc with selectors := assocSet iconName (sels ++ [selector]) acc.selectors })
    (IconAcc.mk [] [] [])
  String.join (acc.list.map fun iconName =>
    String.intercalate ",\n" ((assocGet iconName acc.selectors).getD []) ++
      " \x7b\n  " ++ ((assocGet iconName acc.rules).getD "") ++ "\n\x7d\n")

/-! ## HTML rendering (src/index.js lines 185-327, 346-360) -/

/-- `htmlPath` (src/index.js lines 346-360): breadcrumb of cumulative
links; each nonempty segment is percent-encoded in the href and
HTML-escaped in the text; empty segments join as empty strings. -/
def htmlPath (dir : String) : String :=
  let parts := splitSlashStr dir
  let enc := parts.map fun p => if p ≠ "" then encodeURIComponent p else p
  let crumb := (List.range parts.length).map fun i =>
    let part := parts.getD i ""
    if part ≠ "" then
      "<a href=\"" ++ escapeHtml (String.intercalate "/" (enc.take (i + 1))) ++ "\">" ++
        escapeHtml part ++ "</a>"
    else ""
  String.intercalate " / " crumb

/-- The CSS classes of one entry (src/index.js lines 262-282). -/
def fileClasses (env : Env) (useIcons : Bool) (file : Entry) (isDir : Bool) : List String :=
  if useIcons then
    if isDir then ["icon", "icon-directory"]
    else
      let ext := extname file.name
      let icon := iconLookup env file.name
      let cls := ["icon", "icon", "icon-" ++ ext.drop 1]
      if icon.className ∈ cls then cls else cls ++ [icon.className]
  else []

/-- One `<li>` of the listing (src/index.js lines 261-301). -/
def fileLi (env : Env) (useIcons : Bool) (dir : String) (file : Entry) : String :=
  let isDir := entryIsDir file
  let path0 := (splitSlashStr dir).map encodeURIComponent
  let classes := fileClasses env useIcons file isDir
  let path1 := path0 ++ [encodeURIComponent file.name]
  let date := match file.stat with
    | some st =>
      if file.name ≠ ".." then env.fmtDate st.mtime ++ " " ++ env.fmtTime st.mtime else ""
    | none => ""
  let size := match file.stat with
    | some st => if ¬ isDir then toString st.size else ""
    | none => ""
  "<li><a href=\"" ++
    escapeHtml (normalizeSlashes (posixNormalizeAbs (String.intercalate "/" path1))) ++
    "\" class=\"" ++ escapeHtml (String.intercalate " " classes) ++ "\"" ++
    " title=\"" ++ escapeHtml file.name ++ "\">" ++
    "<span class=\"name\">" ++ escapeHtml file.name ++ "</span>" ++
    "<span class=\"size\">" ++ escapeHtml size ++ "</span>" ++
    "<span class=\"date\">" ++ escapeHtml date ++ "</span>" ++
    "</a></li>"

/-- `createHtmlFileList` (src/index.js lines 251-306). -/
def createHtmlFileList (env : Env) (files : List Entry) (dir : String)
    (useIcons : Bool) (view : String) : String :=
  "<ul id=\"files\" class=\"view-" ++ escapeHtml view ++ "\">" ++
    (if view = "details" then
      "<li class=\"header\"><span class=\"name\">Name</span><span class=\"size\">Size</span><span class=\"date\">Modified</span></li>"
    else "") ++
    String.intercalate "\n" (files.map (fileLi env useIcons dir)) ++
    "</ul>"

/-- `createHtmlRender` (src/index.js lines 311-327): read the template
through the native `fs` module and substitute the four placeholders. -/
def createHtmlRender (env : Env) (template : String) (style : String)
    (fileList : List Entry) (dir : String) (useIcons : Bool) (view : String) :
    Except FsErr String :=
  match env.readFile template with
  | .error e => .error e
  | .ok str => .ok
    ((((str.replace "{style}" (style ++ iconStyle env fileList useIcons)).replace
        "{files}" (createHtmlFileList env fileList dir useIcons view)).replace
        "{directory}" (escapeHtml dir)).replace
        "{linked-path}" (htmlPath dir))

/-- The `files.unshift('..')` step (src/index.js lines 193-195): only the
HTML handler prepends the parent entry; `json` and `plain` receive the
list unchanged. -/
def htmlFiles (showUp : Bool) (files : List String) : List String :=
  if showUp then ".." :: files else files

/-- The `html` handler (src/index.js lines 188-231): prepend `..` when
`showUp`, stat every entry through the configured filesystem, sort with
`fileSort`, read the stylesheet through the native `fs` module, render. -/
def htmlHandler (cfg : Config) (cfs : ConfiguredFS) (env : Env)
    (files0 : List String) (dir : String) (showUp : Bool) (path : String) : Outcome :=
  let files := htmlFiles showUp files0
  match statFiles cfs.stat path files with
  | .error e => .passErr e
  | .ok stats =>
    let fileList := (files.zip stats).map fun p => Entry.mk p.1 p.2
    let sorted := sortEntries fileList
    match env.readFile cfg.stylesheet with
    | .error e => .passErr e
    | .ok style =>
      match createHtmlRender env cfg.template style sorted dir cfg.icons cfg.view with
      | .error e => .passErr e
      | .ok body => .respond "text/html" body

/-! ## The request handler (src/index.js lines 109-183) -/

/-- The handler body for a GET/HEAD request after percent-decoding the
request path (src/index.js lines 125-177).  The content negotiation result
of the external `accepts` module is the `negotiated` parameter.  The
global per-representation override hooks (`serveIndex.html` /
`serveIndex.plain` / `serveIndex.json`, all `null` by default,
src/index.js lines 540-542) are modelled in their default absent state,
so dispatch always reaches the built-in handlers. -/
def serveDecoded (cfg : Config) (cfs : ConfiguredFS) (env : Env)
    (negotiated : Option Media) (dir : String) : Outcome :=
  let path := posixNormalizeAbs (posixJoin cfg.rootPath dir)
  if hasNull path then .clientErr 400
  else if ¬ strIsPrefixOf cfg.rootPath (path ++ "/") then .clientErr 403
  else
    let showUp := showUpFlag cfg.rootPath path
    match cfs.stat path with
    | .error e =>
      if e.code = "ENOENT" then .pass
      else .statErr (if e.code = "ENAMETOOLONG" then 414 else 500) e
    | .ok st =>
      if ¬ st.isDir then .pass
      else
        match cfs.readdir path with
        | .error e => .passErr e
        | .ok files0 =>
          let files := listFiles cfg files0 path
          match negotiated with
          | none => .clientErr 406
          | some .html => htmlHandler cfg cfs env files dir showUp path
          | some .plain => .respond "text/plain" (plainBody files)
          | some .json => .respond "application/json" (jsonStringify files)

/-- A `URIError` escaping the handler synchronously. -/
inductive UriThrown where
  | uriError
deriving DecidableEq

/-- The handler for a GET request (src/index.js lines 109-183):
`decodeURIComponent` runs before anything else touches the filesystem and
its exception propagates out of the middleware (`Except.error`). -/
def serveGet (cfg : Config) (cfs : ConfiguredFS) (env : Env)
    (negotiated : Option Media) (pathname : String) : Except UriThrown Outcome :=
  match decodeURIComponent pathname with
  | none => .error .uriError
  | some dir => .ok (serveDecoded cfg cfs env negotiated dir)

/-! ## Batch scheduling model (claim C6)

Modelled from the spec: the `Batch` dependency that schedules the per-entry
`stat` lookups of `statFiles` (src/index.js lines 519-536) is an external
module whose source is not part of this repository.  Following the
specification, it is modelled as a transition system over job states: a job
may start only while fewer than the bound are running, and a running job
may finish, moving to the completed list.
-/

/-- The scheduler state: queued, in-flight and completed job identifiers. -/
structure BatchState where
  pending : List Nat
  running : List Nat
  finished : List Nat
deriving DecidableEq

/-- One scheduler transition under a concurrency bound. -/
inductive BatchStep (bound : Nat) : BatchState → BatchState → Prop
  /-- Dequeue the next job when a slot is free. -/
  | start (j : Nat) (rest r d : List Nat) :
      r.length < bound →
      BatchStep bound ⟨j :: rest, r, d⟩ ⟨rest, r ++ [j], d⟩
  /-- Any in-flight job may complete, in any order. -/
  | finish (p r1 r2 d : List Nat) (j : Nat) :
      BatchStep bound ⟨p, r1 ++ j :: r2, d⟩ ⟨p, r1 ++ r2, d ++ [j]⟩

/-- Reachability of scheduler states. -/
def BatchReach (bound : Nat) : BatchState → BatchState → Prop :=
  Relation.ReflTransGen (BatchStep bound)

/-- The initial state of the aggregation for an entry list: one queued
lookup per entry, in input order (`batch.push` per file,
src/index.js lines 524-533), with `batch.concurrency(10)`. -/
def statBatchInit (files : List String) : BatchState :=
  ⟨List.range files.length, [], []⟩

/-! ## Spec-side reference order and concrete fixtures -/

/-- The entry names in Sorter's order, as the specification describes the
JSON body: each name paired with its metadata and sorted by `fileSort`.
This definition follows the spec's words and is compared against the
body the code actually produces. -/
def sorterOrderNames (statF : String → Except FsErr FileStat) (path : String)
    (files : List String) : List String :=
  (sortEntries (files.map fun f => Entry.mk f (statOutcome statF path f))).map Entry.name

/-- A tiny concrete filesystem: the directory `/srv/www` holds the
subdirectory `sub` and the regular file `Apple.txt`. -/
def demoFs : ConfiguredFS where
  stat := fun p =>
    if p = "/srv/www/" then .ok ⟨true, 0, 5⟩
    else if p = "/srv/www/sub" then .ok ⟨true, 0, 6⟩
    else if p = "/srv/www/Apple.txt" then .ok ⟨false, 3, 7⟩
    else .error ⟨"ENOENT"⟩
  readdir := fun p => if p = "/srv/www/" then .ok ["sub", "Apple.txt"] else .error ⟨"ENOTDIR"⟩
  readFile := fun _ => .error ⟨"ENOENT"⟩

/-- A filesystem whose every operation fails with a fixed error code. -/
def constErrFs (code : String) : ConfiguredFS where
  stat := fun _ => .error ⟨code⟩
  readdir := fun _ => .error ⟨code⟩
  readFile := fun _ => .error ⟨code⟩

/-- A filesystem on which every path is a regular file. -/
def fileOnlyFs : ConfiguredFS where
  stat := fun _ => .ok ⟨false, 1, 1⟩
  readdir := fun _ => .error ⟨"ENOTDIR"⟩
  readFile := fun _ => .error ⟨"ENOTDIR"⟩

/-- A neutral environment for concrete runs. -/
def demoEnv : Env where
  readFile := fun _ => .ok ""
  iconData := fun _ => ""
  mimeLookup := fun _ => none
  fmtDate := fun _ => ""
  fmtTime := fun _ => ""

/-- The default configuration rooted at `/srv/www`. -/
def demoCfg : Config where
  rootPath := mkRootPath "/srv/www"
  hidden := false
  filter := none
  icons := false
  view := "tiles"
  stylesheet := "/style.css"
  template := "/directory.html"

/-! ## Lemmas about the stable sort -/

theorem mem_insertBy {le : α → α → Bool} {a x : α} {l : List α} :
    x ∈ insertBy le a l ↔ x = a ∨ x ∈ l := by
  induction l with
  | nil => simp [insertBy]
  | cons b bs ih =>
    by_cases h : le a b
    · simp only [insertBy, h, if_true, List.mem_cons]
    · simp only [insertBy, h, if_false, List.mem_cons, ih, Bool.false_eq_true]
      tauto

theorem insertBy_perm (le : α → α → Bool) (a : α) (l : List α) :
    (insertBy le a l).Perm (a :: l) := by
  induction l with
  | nil => simp [insertBy]
  | cons b bs ih =>
    by_cases h : le a b
    · simp [insertBy, h]
    · simp only [insertBy, h, if_false, Bool.false_eq_true]
      exact (ih.cons b).trans (List.Perm.swap a b bs)

theorem sortBy_perm (le : α → α → Bool) (l : List α) : (sortBy le l).Perm l := by
  induction l with
  | nil => simp [sortBy]
  | cons a as ih => exact (insertBy_perm le a (sortBy le as)).trans (ih.cons a)

theorem mem_sortBy {le : α → α → Bool} {x : α} {l : List α} :
    x ∈ sortBy le l ↔ x ∈ l := (sortBy_perm le l).mem_iff

theorem insertBy_sorted {le : α → α → Bool}
    (htr : ∀ x y z, le x y = true → le y z = true → le x z = true)
    (hto : ∀ x y, le x y = true ∨ le y x = true)
    (a : α) {l : List α} (h : l.Pairwise (fun x y => le x y = true)) :
    (insertBy le a l).Pairwise (fun x y => le x y = true) := by
  induction l with
  | nil => simp [insertBy]
  | cons b bs ih =>
    rcases List.pairwise_cons.mp h with ⟨hb, hbs⟩
    by_cases hab : le a b
    · simp only [insertBy, hab, if_true]
      refine List.pairwise_cons.mpr ⟨?_, h⟩
      intro x hx
      rcases List.mem_cons.mp hx with rfl | hx
      · exact hab
      · exact htr a b x hab (hb x hx)
    · have hba : le b a = true := by
        rcases hto a b with h1 | h1
        · exact absurd h1 hab
        · exact h1
      simp only [insertBy, hab, if_false, Bool.false_eq_true]
      refine List.pairwise_cons.mpr ⟨?_, ih hbs⟩
      intro x hx
      rcases mem_insertBy.mp hx with rfl | hx
      · exact hba
      · exact hb x hx

theorem sortBy_sorted {le : α → α → Bool}
    (htr : ∀ x y z, le x y = true → le y z = true → le x z = true)
    (hto : ∀ x y, le x y = true ∨ le y x = true) (l : List α) :
    (sortBy le l).Pairwise (fun x y => le x y = true) := by
  induction l with
  | nil => simp [sortBy]
  | cons a as ih => exact insertBy_sorted htr hto a ih

theorem sublist_insertBy (le : α → α → Bool) (a : α) (l : List α) :
    l.Sublist (insertBy le a l) := by
  induction l with
  | nil => simp [insertBy]
  | cons b bs ih =>
    by_cases h : le a b
    · simp only [insertBy, h, if_true]
      exact (List.Sublist.refl (b :: bs)).cons a
    · simp only [insertBy, h, if_false, Bool.false_eq_true]
      exact ih.cons₂ b

theorem pair_sublist_insertBy {le : α → α → Bool} {a b : α}
    (hab : le a b = true) {t : List α} (hb : b ∈ t) :
    [a, b].Sublist (insertBy le a t) := by
  induction t with
  | nil => cases hb
  | cons x xs ih =>
    by_cases h : le a x
    · simp only [insertBy, h, if_true]
      exact (List.singleton_sublist.mpr hb).cons₂ a
    · have hxb : x ≠ b := by
        intro hxe
        rw [hxe] at h
        exact h hab
      have hbxs : b ∈ xs := by
        rcases List.mem_cons.mp hb with h1 | h1
        · exact absurd h1.symm hxb
        · exact h1
      simp only [insertBy, h, if_false, Bool.false_eq_true]
      exact (ih hbxs).cons x

theorem sortBy_stable_pair {le : α → α → Bool} {a b : α}
    (hab : le a b = true) {l : List α} (h : [a, b].Sublist l) :
    [a, b].Sublist (sortBy le l) := by
  induction l with
  | nil => cases h
  | cons c cs ih =>
    cases h with
    | cons _ h2 => exact (ih h2).trans (sublist_insertBy le c (sortBy le cs))
    | cons₂ _ h2 =>
      have hb : b ∈ sortBy le cs := mem_sortBy.mpr (List.singleton_sublist.mp h2)
      exact pair_sublist_insertBy hab hb

/-! ## Lemmas about string comparison and the Sorter -/

theorem strCmp_eq_iff {a : List Char} : ∀ {b : List Char}, strCmp a b = .eq ↔ a = b := by
  induction a with
  | nil =>
    intro b
    cases b with
    | nil => simp [strCmp]
    | cons y ys => simp [strCmp]
  | cons x xs ih =>
    intro b
    cases b with
    | nil => simp [strCmp]
    | cons y ys =>
      rcases hc : compare x.toNat y.toNat with hlt | heq | hgt
      · have hxy : x ≠ y := by
          intro he
          rw [he, Nat.compare_eq_eq.mpr rfl] at hc
          cases hc
        simp [strCmp, hc, hxy]
      · have hxy : x = y := Char.eq_of_val_eq (UInt32.toNat.inj (Nat.compare_eq_eq.mp hc))
        subst hxy
        simp [strCmp, hc, ih]
      · have hxy : x ≠ y := by
          intro he
          rw [he, Nat.compare_eq_eq.mpr rfl] at hc
          cases hc
        simp [strCmp, hc, hxy]

theorem strCmp_swap (a : List Char) : ∀ (b : List Char), (strCmp a b).swap = strCmp b a := by
  induction a with
  | nil =>
    intro b
    cases b with
    | nil => rfl
    | cons y ys => rfl
  | cons x xs ih =>
    intro b
    cases b with
    | nil => rfl
    | cons y ys =>
      have hswap : compare y.toNat x.toNat = (compare x.toNat y.toNat).swap :=
        (Nat.compare_swap x.toNat y.toNat).symm
      rcases hc : compare x.toNat y.toNat with hlt | heq | hgt
      · rw [hc] at hswap
        simp [strCmp, hc, hswap, Ordering.swap]
      · rw [hc] at hswap
        simp only [strCmp, hc, hswap]
        exact ih ys
      · rw [hc] at hswap
        simp [strCmp, hc, hswap, Ordering.swap]

theorem strCmp_lt_trans {a : List Char} :
    ∀ {b c : List Char}, strCmp a b = .lt → strCmp b c = .lt → strCmp a c = .lt := by
  induction a with
  | nil =>
    intro b c h1 h2
    cases b with
    | nil => cases h1
    | cons y ys =>
      cases c with
      | nil => cases h2
      | cons z zs => rfl
  | cons x xs ih =>
    intro b c h1 h2
    cases b with
    | nil => cases h1
    | cons y ys =>
      cases c with
      | nil => cases h2
      | cons z zs =>
        rcases hxy : compare x.toNat y.toNat with h | h | h <;>
          rcases hyz : compare y.toNat z.toNat with h' | h' | h' <;>
            simp only [strCmp, hxy, hyz] at h1 h2 ⊢
        · have : x.toNat < z.toNat :=
            lt_trans (Nat.compare_eq_lt.mp hxy) (Nat.compare_eq_lt.mp hyz)
          simp [Nat.compare_eq_lt.mpr this]
        · have hy : y.toNat = z.toNat := Nat.compare_eq_eq.mp hyz
          rw [← hy]
          simp [strCmp, hxy]
        · cases h2
        · have hy : x.toNat = y.toNat := Nat.compare_eq_eq.mp hxy
          rw [hy]
          simp [strCmp, hyz]
        · have hx : x.toNat = y.toNat := Nat.compare_eq_eq.mp hxy
          have hy : y.toNat = z.toNat := Nat.compare_eq_eq.mp hyz
          rw [hx, hy]
          simp only [Nat.compare_eq_eq.mpr rfl]
          exact ih h1 h2
        · cases h2
        · cases h1
        · cases h1
        · cases h1

theorem localeCompare_zero_iff {a b : String} : localeCompare a b = 0 ↔ a = b := by
  unfold localeCompare
  rcases hc : strCmp a.data b.data with h | h | h
  · simp only [hc]
    constructor
    · intro h0
      exact absurd h0 (by decide)
    · intro he
      rw [he, (strCmp_eq_iff).mpr rfl] at hc
      cases hc
  · simp only [hc]
    constructor
    · intro _
      exact String.ext (strCmp_eq_iff.mp hc)
    · intro _
      trivial
  · simp only [hc]
    constructor
    · intro h0
      exact absurd h0 (by decide)
    · intro he
      rw [he, (strCmp_eq_iff).mpr rfl] at hc
      cases hc

theorem localeCompare_neg (a b : String) : localeCompare b a = - localeCompare a b := by
  unfold localeCompare
  have hs := strCmp_swap a.data b.data
  rcases hc : strCmp a.data b.data with h | h | h <;>
    rw [hc] at hs <;> rw [← hs] <;> rfl

theorem localeCompare_le_trans {a b c : String} (h1 : localeCompare a b ≤ 0)
    (h2 : localeCompare b c ≤ 0) : localeCompare a c ≤ 0 := by
  rcases hab : strCmp a.data b.data with h | h | h
  · rcases hbc : strCmp b.data c.data with h' | h' | h'
    · unfold localeCompare
      rw [strCmp_lt_trans hab hbc]
      norm_num
    · have : b = c := String.ext (strCmp_eq_iff.mp hbc)
      rw [← this]
      unfold localeCompare
      rw [hab]
      norm_num
    · unfold localeCompare at h2
      rw [hbc] at h2
      norm_num at h2
  · have : a = b := String.ext (strCmp_eq_iff.mp hab)
    rw [this]
    exact h2
  · unfold localeCompare at h1
    rw [hab] at h1
    norm_num at h1

theorem fileSort_dotdot_left {a b : Entry} (ha : a.name = "..") (hb : b.name ≠ "..") :
    fileSort a b = -1 := by
  have hne : ¬ (".." = b.name) := fun he => hb he.symm
  simp [fileSort, ha, hne]

theorem fileSort_dotdot_both {a b : Entry} (ha : a.name = "..") (hb : b.name = "..") :
    fileSort a b = 0 := by
  simp [fileSort, ha, hb]

theorem fileSort_dotdot_right {a b : Entry} (ha : a.name ≠ "..") (hb : b.name = "..") :
    fileSort a b = 1 := by
  simp [fileSort, ha, hb]

theorem fileSort_dir_first {a b : Entry} (ha : a.name ≠ "..") (hb : b.name ≠ "..")
    (hda : entryIsDir a = true) (hdb : entryIsDir b = false) : fileSort a b = -1 := by
  norm_num [fileSort, ha, hb, hda, hdb]

theorem fileSort_same_kind {a b : Entry} (ha : a.name ≠ "..") (hb : b.name ≠ "..")
    (hd : entryIsDir a = entryIsDir b) :
    fileSort a b = localeCompare (toLowerStr a.name) (toLowerStr b.name) := by
  cases hda : entryIsDir a
  · have hdb : entryIsDir b = false := by rw [← hd, hda]
    norm_num [fileSort, ha, hb, hda, hdb]
  · have hdb : entryIsDir b = true := by rw [← hd, hda]
    norm_num [fileSort, ha, hb, hda, hdb]

theorem fileSort_nondir_dir {a b : Entry} (ha : a.name ≠ "..") (hb : b.name ≠ "..")
    (hda : entryIsDir a = false) (hdb : entryIsDir b = true) : fileSort a b = 1 := by
  norm_num [fileSort, ha, hb, hda, hdb]

theorem fileSort_neg (a b : Entry) : fileSort b a = - fileSort a b := by
  by_cases ha : a.name = ".."
  · by_cases hb : b.name = ".."
    · rw [fileSort_dotdot_both ha hb, fileSort_dotdot_both hb ha]
      decide
    · rw [fileSort_dotdot_left ha hb, fileSort_dotdot_right hb ha]
      decide
  · by_cases hb : b.name = ".."
    · rw [fileSort_dotdot_right ha hb, fileSort_dotdot_left hb ha]
    · by_cases hd : entryIsDir a = entryIsDir b
      · rw [fileSort_same_kind ha hb hd, fileSort_same_kind hb ha hd.symm]
        exact localeCompare_neg _ _
      · cases hxa : entryIsDir a <;> cases hxb : entryIsDir b
        · rw [hxa, hxb] at hd
          exact absurd rfl hd
        · rw [fileSort_dir_first hb ha hxb hxa, fileSort_nondir_dir ha hb hxa hxb]
        · rw [fileSort_nondir_dir hb ha hxb hxa, fileSort_dir_first ha hb hxa hxb]
          decide
        · rw [hxa, hxb] at hd
          exact absurd rfl hd

theorem fileSort_total (a b : Entry) : fileSortLe a b = true ∨ fileSortLe b a = true := by
  unfold fileSortLe
  rw [fileSort_neg a b]
  by_cases h : fileSort a b ≤ 0
  · left
    exact decide_eq_true h
  · right
    apply decide_eq_true
    omega

theorem fileSort_le_char {a b : Entry} (ha : a.name ≠ "..") (hb : b.name ≠ "..") :
    fileSortLe a b = true ↔
      (entryIsDir a = true ∧ entryIsDir b = false) ∨
        (entryIsDir a = entryIsDir b ∧
          localeCompare (toLowerStr a.name) (toLowerStr b.name) ≤ 0) := by
  unfold fileSortLe
  cases hda : entryIsDir a <;> cases hdb : entryIsDir b
  · rw [fileSort_same_kind ha hb (hda.trans hdb.symm)]
    simp [hda, hdb, decide_eq_true_iff]
  · rw [fileSort_nondir_dir ha hb hda hdb]
    norm_num [hda, hdb]
  · rw [fileSort_dir_first ha hb hda hdb]
    norm_num [hda, hdb]
  · rw [fileSort_same_kind ha hb (hda.trans hdb.symm)]
    simp [hda, hdb, decide_eq_true_iff]

theorem fileSort_trans {a b c : Entry} (h1 : fileSortLe a b = true)
    (h2 : fileSortLe b c = true) : fileSortLe a c = true := by
  by_cases ha : a.name = ".."
  · by_cases hc : c.name = ".."
    · unfold fileSortLe
      rw [fileSort_dotdot_both ha hc]
      rfl
    · unfold fileSortLe
      rw [fileSort_dotdot_left ha hc]
      rfl
  · by_cases hc : c.name = ".."
    · by_cases hb : b.name = ".."
      · unfold fileSortLe at h1
        rw [fileSort_dotdot_right ha hb] at h1
        cases h1
      · unfold fileSortLe at h2
        rw [fileSort_dotdot_right hb hc] at h2
        cases h2
    · by_cases hb : b.name = ".."
      · unfold fileSortLe at h1
        rw [fileSort_dotdot_right ha hb] at h1
        cases h1
      · rcases (fileSort_le_char ha hb).mp h1 with ⟨hda, hdb⟩ | ⟨hd1, hl1⟩ <;>
          rcases (fileSort_le_char hb hc).mp h2 with ⟨hdb', hdc⟩ | ⟨hd2, hl2⟩
        · rw [hdb] at hdb'
          cases hdb'
        · exact (fileSort_le_char ha hc).mpr (Or.inl ⟨hda, hd2 ▸ hdb⟩)
        · exact (fileSort_le_char ha hc).mpr (Or.inl ⟨hd1 ▸ hdb', hdc⟩)
        · exact (fileSort_le_char ha hc).mpr
            (Or.inr ⟨hd1.trans hd2, localeCompare_le_trans hl1 hl2⟩)

/-! ## Lemmas about the posix path model -/

theorem splitSlash_ne_nil (l : List Char) : splitSlash l ≠ [] := by
  cases l with
  | nil => simp [splitSlash]
  | cons c cs =>
    unfold splitSlash
    cases h : splitSlash cs with
    | nil => simp
    | cons g gs =>
      by_cases hc : c = '/' <;> simp [hc]

theorem splitSlash_no_slash (l : List Char) : ∀ g ∈ splitSlash l, '/' ∉ g := by
  induction l with
  | nil =>
    intro g hg
    simp [splitSlash] at hg
    simp [hg]
  | cons c cs ih =>
    intro g hg
    unfold splitSlash at hg
    cases h : splitSlash cs with
    | nil => exact absurd h (splitSlash_ne_nil cs)
    | cons g0 gs =>
      rw [h] at hg
      by_cases hc : c = '/'
      · simp only [hc, if_true] at hg
        rcases List.mem_cons.mp hg with rfl | hg2
        · simp
        · exact ih g (h ▸ hg2)
      · simp only [hc, if_false] at hg
        rcases List.mem_cons.mp hg with rfl | hg2
        · intro hmem
          rcases List.mem_cons.mp hmem with rfl | hmem2
          · exact hc rfl
          · exact ih g0 (h ▸ List.mem_cons_self g0 gs) hmem2
        · exact ih g (h ▸ List.mem_cons.mpr (Or.inr hg2))

theorem foldl_normStep_wf {l : List Seg} (hl : ∀ g ∈ l, '/' ∉ g) :
    ∀ {acc : List Seg}, WfSegs acc → WfSegs (l.foldl normStep acc) := by
  induction l with
  | nil =>
    intro acc hacc
    exact hacc
  | cons s rest ih =>
    intro acc hacc
    have hs : '/' ∉ s := hl s (List.mem_cons_self s rest)
    have hrest : ∀ g ∈ rest, '/' ∉ g := fun g hg => hl g (List.mem_cons.mpr (Or.inr hg))
    simp only [List.foldl_cons]
    apply ih hrest
    unfold normStep
    by_cases h1 : s = [] ∨ s = ['.']
    · simp only [h1, if_true]
      exact hacc
    · by_cases h2 : s = ['.', '.']
      · simp only [h1, if_false, h2, if_true]
        intro g hg
        exact hacc g ((List.dropLast_sublist acc).subset hg)
      · simp only [h1, if_false, h2]
        intro g hg
        rcases List.mem_append.mp hg with hg1 | hg1
        · exact hacc g hg1
        · have : g = s := by simpa using hg1
          subst this
          push_neg at h1
          exact ⟨h1.1, h1.2, h2, hs⟩

theorem normSegs_wf {l : List Seg} (hl : ∀ g ∈ l, '/' ∉ g) : WfSegs (normSegs l) :=
  foldl_normStep_wf hl (fun g hg => absurd hg (List.not_mem_nil g))

theorem normSegs_splitSlash_wf (p : List Char) : WfSegs (normSegs (splitSlash p)) :=
  normSegs_wf (splitSlash_no_slash p)

theorem foldl_normStep_keep {l : List Seg} (hl : WfSegs l) :
    ∀ acc, l.foldl normStep acc = acc ++ l := by
  induction l with
  | nil =>
    intro acc
    simp
  | cons s rest ih =>
    intro acc
    have hs := hl s (List.mem_cons_self s rest)
    have hrest : WfSegs rest := fun g hg => hl g (List.mem_cons.mpr (Or.inr hg))
    have hstep : normStep acc s = acc ++ [s] := by
      unfold normStep
      simp [hs.1, hs.2.1, hs.2.2.1]
    simp only [List.foldl_cons, hstep, ih hrest]
    simp

theorem normSegs_keep {l : List Seg} (hl : WfSegs l) : normSegs l = l := by
  unfold normSegs
  rw [foldl_normStep_keep hl]
  simp

theorem normSegs_nil_cons (l : List Seg) : normSegs ([] :: l) = normSegs l := by
  unfold normSegs
  simp [List.foldl_cons, normStep]

theorem foldl_normStep_concat_nil (l : List Seg) (acc : List Seg) :
    (l ++ [[]]).foldl normStep acc = l.foldl normStep acc := by
  rw [List.foldl_append]
  simp [normStep]

theorem splitSlash_cons (c : Char) (cs : List Char) :
    splitSlash (c :: cs) =
      match splitSlash cs with
      | [] => [[]]
      | g :: gs => if c = '/' then [] :: g :: gs else (c :: g) :: gs := rfl

theorem normSegs_concat_nil (l : List Seg) : normSegs (l ++ [[]]) = normSegs l :=
  foldl_normStep_concat_nil l []

theorem splitSlash_single {g : List Char} (h : '/' ∉ g) : splitSlash g = [g] := by
  induction g with
  | nil => rfl
  | cons c cs ih =>
    have hc : c ≠ '/' := by
      intro he
      exact h (he ▸ List.mem_cons_self c cs)
    have hcs : '/' ∉ cs := fun hm => h (List.mem_cons.mpr (Or.inr hm))
    unfold splitSlash
    rw [ih hcs]
    simp [hc]

theorem splitSlash_seg_cons {g : List Char} (h : '/' ∉ g) (t : List Char) :
    splitSlash (g ++ '/' :: t) = g :: splitSlash t := by
  induction g with
  | nil =>
    simp only [List.nil_append]
    rw [splitSlash_cons]
    cases ht : splitSlash t with
    | nil => exact absurd ht (splitSlash_ne_nil t)
    | cons g0 gs => simp [ht]
  | cons c cs ih =>
    have hc : c ≠ '/' := by
      intro he
      exact h (he ▸ List.mem_cons_self c cs)
    have hcs : '/' ∉ cs := fun hm => h (List.mem_cons.mpr (Or.inr hm))
    simp only [List.cons_append]
    rw [splitSlash_cons, ih hcs]
    simp [hc]

theorem splitSlash_concat_slash (l : List Char) :
    splitSlash (l ++ ['/']) = splitSlash l ++ [[]] := by
  induction l with
  | nil => rfl
  | cons c cs ih =>
    simp only [List.cons_append]
    unfold splitSlash
    rw [ih]
    cases h : splitSlash cs with
    | nil => exact absurd h (splitSlash_ne_nil cs)
    | cons g0 gs =>
      by_cases hc : c = '/' <;> simp [hc]

theorem catSegs_ne_nil {segs : List Seg} (h : WfSegs segs) (hne : segs ≠ []) :
    catSegs segs ≠ [] := by
  cases segs with
  | nil => exact absurd rfl hne
  | cons g rest =>
    cases rest with
    | nil =>
      simp only [catSegs]
      exact (h g (List.mem_cons_self g [])).1
    | cons g2 rest2 =>
      simp only [catSegs]
      intro hx
      have := (h g (List.mem_cons_self g (g2 :: rest2))).1
      exact this (List.append_eq_nil.mp hx).1

theorem splitSlash_catSegs {segs : List Seg} (h : WfSegs segs) (hne : segs ≠ []) :
    splitSlash (catSegs segs) = segs := by
  induction segs with
  | nil => exact absurd rfl hne
  | cons g rest ih =>
    cases rest with
    | nil =>
      simp only [catSegs]
      exact splitSlash_single (h g (List.mem_cons_self g [])).2.2.2
    | cons g2 rest2 =>
      have hrest : WfSegs (g2 :: rest2) := fun x hx => h x (List.mem_cons.mpr (Or.inr hx))
      simp only [catSegs]
      rw [splitSlash_seg_cons (h g (List.mem_cons_self g (g2 :: rest2))).2.2.2]
      rw [ih hrest (by simp)]

theorem splitSlash_joinSegs {segs : List Seg} (h : WfSegs segs) (hne : segs ≠ []) :
    splitSlash (joinSegsCh segs) = [] :: segs := by
  unfold joinSegsCh
  unfold splitSlash
  cases hs : splitSlash (catSegs segs) with
  | nil => exact absurd hs (splitSlash_ne_nil _)
  | cons g0 gs =>
    rw [splitSlash_catSegs h hne] at hs
    simp [hs]

theorem splitSlash_joinSegs_nil : splitSlash (joinSegsCh []) = [[], []] := rfl

theorem normSegs_splitSlash_joinSegs {segs : List Seg} (h : WfSegs segs) :
    normSegs (splitSlash (joinSegsCh segs)) = segs := by
  by_cases hne : segs = []
  · subst hne
    rfl
  · rw [splitSlash_joinSegs h hne, normSegs_nil_cons, normSegs_keep h]

theorem getLast_catSegs {segs : List Seg} (h : WfSegs segs) (hne : segs ≠ []) :
    ∃ c, (catSegs segs).getLast? = some c ∧ c ≠ '/' := by
  induction segs with
  | nil => exact absurd rfl hne
  | cons g rest ih =>
    cases rest with
    | nil =>
      have hg := h g (List.mem_cons_self g [])
      simp only [catSegs]
      refine ⟨g.getLast hg.1, List.getLast?_eq_getLast g hg.1, ?_⟩
      intro he
      exact hg.2.2.2 (he ▸ List.getLast_mem hg.1)
    | cons g2 rest2 =>
      have hrest : WfSegs (g2 :: rest2) := fun x hx => h x (List.mem_cons.mpr (Or.inr hx))
      rcases ih hrest (by simp) with ⟨c, hc, hcne⟩
      refine ⟨c, ?_, hcne⟩
      simp only [catSegs]
      rw [List.getLast?_append_of_ne_nil]
      · rcases List.exists_cons_of_ne_nil (catSegs_ne_nil hrest (by simp)) with ⟨x, xs, hx⟩
        rw [hx, List.getLast?_cons_cons, ← hx]
        exact hc
      · simp

theorem endsSlash_joinSegs {segs : List Seg} (h : WfSegs segs) (hne : segs ≠ []) :
    endsSlash (joinSegsCh segs) = false := by
  rcases getLast_catSegs h hne with ⟨c, hc, hcne⟩
  unfold endsSlash joinSegsCh
  have hlast : ('/' :: catSegs segs).getLast? = some c := by
    rw [List.getLast?_cons, hc]
    rfl
  rw [hlast]
  simp [hcne]

theorem endsSlash_concat_slash (l : List Char) : endsSlash (l ++ ['/']) = true := by
  unfold endsSlash
  rw [List.getLast?_concat]
  rfl

theorem normalizeAbs_joinSegs {segs : List Seg} (h : WfSegs segs) :
    normalizeAbsCh (joinSegsCh segs) = joinSegsCh segs := by
  by_cases hne : segs = []
  · subst hne
    rfl
  · unfold normalizeAbsCh
    rw [normSegs_splitSlash_joinSegs h, endsSlash_joinSegs h hne]
    simp

theorem normalizeAbs_joinSegs_slash {segs : List Seg} (h : WfSegs segs) :
    normalizeAbsCh (joinSegsCh segs ++ ['/']) =
      if segs = [] then joinSegsCh [] else joinSegsCh segs ++ ['/'] := by
  unfold normalizeAbsCh
  have hns : normSegs (splitSlash (joinSegsCh segs ++ ['/'])) = segs := by
    rw [splitSlash_concat_slash, normSegs_concat_nil]
    exact normSegs_splitSlash_joinSegs h
  rw [hns, endsSlash_concat_slash]
  by_cases hne : segs = []
  · simp [hne]
  · simp [hne]

theorem resolveAbs_joinSegs {segs : List Seg} (h : WfSegs segs) :
    resolveAbsCh (joinSegsCh segs) = joinSegsCh segs := by
  show joinSegsCh (normSegs (splitSlash (joinSegsCh segs))) = joinSegsCh segs
  rw [normSegs_splitSlash_joinSegs h]

theorem resolveAbs_joinSegs_slash {segs : List Seg} (h : WfSegs segs) :
    resolveAbsCh (joinSegsCh segs ++ ['/']) = joinSegsCh segs := by
  show joinSegsCh (normSegs (splitSlash (joinSegsCh segs ++ ['/']))) = joinSegsCh segs
  rw [splitSlash_concat_slash, normSegs_concat_nil, normSegs_splitSlash_joinSegs h]

theorem joinSegs_inj {s t : List Seg} (hs : WfSegs s) (ht : WfSegs t)
    (h : joinSegsCh s = joinSegsCh t) : s = t := by
  by_cases hsne : s = []
  · subst hsne
    by_cases htne : t = []
    · exact htne.symm
    · have hsp := congrArg splitSlash h
      rw [splitSlash_joinSegs_nil, splitSlash_joinSegs ht htne] at hsp
      have h2 : [([] : Seg)] = t := by
        injection hsp with _ h3
      have := ht [] (h2 ▸ List.mem_cons_self ([] : Seg) [])
      exact absurd rfl this.1
  · by_cases htne : t = []
    · subst htne
      have hsp := congrArg splitSlash h
      rw [splitSlash_joinSegs hs hsne, splitSlash_joinSegs_nil] at hsp
      have h2 : s = [([] : Seg)] := by
        injection hsp with _ h3
      have := hs [] (h2 ▸ List.mem_cons_self ([] : Seg) [])
      exact absurd rfl this.1
    · have hsp := congrArg splitSlash h
      rw [splitSlash_joinSegs hs hsne, splitSlash_joinSegs ht htne] at hsp
      injection hsp with _ h3

theorem joinSegs_eq_slash_iff {t : List Seg} (ht : WfSegs t) :
    joinSegsCh t = joinSegsCh [] ↔ t = [] := by
  constructor
  · intro h
    exact joinSegs_inj ht (fun g hg => absurd hg (List.not_mem_nil g)) h
  · intro h
    rw [h]

theorem joinSegs_ne_join_slash {s t : List Seg} (hs : WfSegs s) (ht : WfSegs t)
    (hsne : s ≠ []) : joinSegsCh t ≠ joinSegsCh s ++ ['/'] := by
  intro h
  have hsp := congrArg splitSlash h
  rw [splitSlash_concat_slash, splitSlash_joinSegs hs hsne] at hsp
  by_cases htne : t = []
  · subst htne
    rw [splitSlash_joinSegs_nil] at hsp
    have h2 : [([] : Seg)] = s ++ [[]] := by
      injection hsp with _ h3
    have hlen := congrArg List.length h2
    simp at hlen
    rw [hlen] at hsne
    exact hsne rfl
  · rw [splitSlash_joinSegs ht htne] at hsp
    have h2 : t = s ++ [[]] := by
      injection hsp with _ h3
    have hmem : ([] : Seg) ∈ t := by
      rw [h2]
      simp
    exact (ht [] hmem).1 rfl

theorem join_slash_ne_slash {t : List Seg} : joinSegsCh t ++ ['/'] ≠ joinSegsCh [] := by
  intro h
  have hlen := congrArg List.length h
  simp [joinSegsCh, catSegs] at hlen

theorem join_slash_slash_ne_slash {t : List Seg} :
    (joinSegsCh t ++ ['/']) ++ ['/'] ≠ joinSegsCh [] := by
  intro h
  have hlen := congrArg List.length h
  simp [joinSegsCh, catSegs] at hlen

theorem normalizeAbs_form (p : List Char) :
    normalizeAbsCh p = joinSegsCh (normSegs (splitSlash p)) ∨
      (normSegs (splitSlash p) ≠ [] ∧
        normalizeAbsCh p = joinSegsCh (normSegs (splitSlash p)) ++ ['/']) := by
  unfold normalizeAbsCh
  by_cases h : endsSlash p ∧ normSegs (splitSlash p) ≠ []
  · right
    refine ⟨h.2, ?_⟩
    simp [h]
  · left
    simp [h]

theorem normalizeAbs_idem (p : List Char) :
    normalizeAbsCh (normalizeAbsCh p) = normalizeAbsCh p := by
  have hwf := normSegs_splitSlash_wf p
  rcases normalizeAbs_form p with h | ⟨hne, h⟩
  · rw [h, normalizeAbs_joinSegs hwf]
  · rw [h, normalizeAbs_joinSegs_slash hwf]
    simp [hne]

theorem showUp_iff_core {S T : List Seg} (hS : WfSegs S) (hT : WfSegs T)
    {rp p : List Char}
    (hrp : rp = if S = [] then joinSegsCh [] else joinSegsCh S ++ ['/'])
    (hp : p = joinSegsCh T ∨ (T ≠ [] ∧ p = joinSegsCh T ++ ['/'])) :
    (normalizeAbsCh (resolveAbsCh p ++ ['/']) = rp ↔ (p = rp ∨ p ++ ['/'] = rp)) := by
  have hres : resolveAbsCh p = joinSegsCh T := by
    rcases hp with h | ⟨hTne, h⟩
    · rw [h]
      exact resolveAbs_joinSegs hT
    · rw [h]
      exact resolveAbs_joinSegs_slash hT
  have hleft : normalizeAbsCh (resolveAbsCh p ++ ['/']) =
      if T = [] then joinSegsCh [] else joinSegsCh T ++ ['/'] := by
    rw [hres]
    exact normalizeAbs_joinSegs_slash hT
  have hkey : ((if T = [] then joinSegsCh [] else joinSegsCh T ++ ['/']) =
      (if S = [] then joinSegsCh [] else joinSegsCh S ++ ['/'])) ↔ T = S := by
    by_cases hT0 : T = [] <;> by_cases hS0 : S = []
    · rw [if_pos hT0, if_pos hS0, hT0, hS0]
      simp
    · rw [if_pos hT0, if_neg hS0]
      constructor
      · intro h
        exact absurd h
          (joinSegs_ne_join_slash hS (fun g hg => absurd hg (List.not_mem_nil g)) hS0)
      · intro h
        rw [h] at hT0
        exact absurd hT0 hS0
    · rw [if_neg hT0, if_pos hS0]
      constructor
      · intro h
        exact absurd h join_slash_ne_slash
      · intro h
        rw [hS0] at h
        exact absurd h hT0
    · rw [if_neg hT0, if_neg hS0]
      constructor
      · intro h
        exact joinSegs_inj hT hS (List.append_cancel_right h)
      · intro h
        rw [h]
  have hlhs : (normalizeAbsCh (resolveAbsCh p ++ ['/']) = rp) ↔ T = S := by
    rw [hleft, hrp]
    exact hkey
  rw [hlhs]
  by_cases hS0 : S = []
  · have hrp0 : rp = joinSegsCh [] := by rw [hrp, if_pos hS0]
    rw [hS0, hrp0]
    rcases hp with h | ⟨hTne, h⟩
    · rw [h]
      constructor
      · intro hts
        left
        rw [hts]
      · intro hd
        rcases hd with hd | hd
        · exact (joinSegs_eq_slash_iff hT).mp hd
        · exact absurd hd join_slash_ne_slash
    · rw [h]
      constructor
      · intro hts
        exact absurd hts hTne
      · intro hd
        rcases hd with hd | hd
        · exact absurd hd join_slash_ne_slash
        · exact absurd hd join_slash_slash_ne_slash
  · have hrp0 : rp = joinSegsCh S ++ ['/'] := by rw [hrp, if_neg hS0]
    rw [hrp0]
    rcases hp with h | ⟨hTne, h⟩
    · rw [h]
      constructor
      · intro hts
        right
        rw [hts]
      · intro hd
        rcases hd with hd | hd
        · exact absurd hd (joinSegs_ne_join_slash hS hT hS0)
        · exact joinSegs_inj hT hS (List.append_cancel_right hd)
    · rw [h]
      constructor
      · intro hts
        left
        rw [hts]
      · intro hd
        rcases hd with hd | hd
        · exact joinSegs_inj hT hS (List.append_cancel_right hd)
        · have h2 := List.append_cancel_right hd
          exact absurd h2.symm (joinSegs_ne_join_slash hT hS hTne)

theorem data_posixNormalizeAbs (s : String) :
    (posixNormalizeAbs s).data = normalizeAbsCh s.data := rfl

theorem data_posixResolveAbs (s : String) :
    (posixResolveAbs s).data = resolveAbsCh s.data := rfl

theorem data_join3 (a b : String) : (a ++ "/" ++ b).data = a.data ++ '/' :: b.data := by
  rw [String.data_append, String.data_append]
  simp

theorem mkRootPath_data (root : String) :
    (mkRootPath root).data =
      if normSegs (splitSlash root.data) = [] then joinSegsCh []
      else joinSegsCh (normSegs (splitSlash root.data)) ++ ['/'] := by
  show normalizeAbsCh ((posixResolveAbs root ++ "/").data) = _
  rw [String.data_append, data_posixResolveAbs]
  exact normalizeAbs_joinSegs_slash (normSegs_splitSlash_wf root.data)

theorem path_data_form (rp dir : String) :
    (posixNormalizeAbs (posixJoin rp dir)).data =
        joinSegsCh (normSegs (splitSlash (rp.data ++ '/' :: dir.data))) ∨
      (normSegs (splitSlash (rp.data ++ '/' :: dir.data)) ≠ [] ∧
        (posixNormalizeAbs (posixJoin rp dir)).data =
          joinSegsCh (normSegs (splitSlash (rp.data ++ '/' :: dir.data))) ++ ['/']) := by
  have hd : (posixNormalizeAbs (posixJoin rp dir)).data
      = normalizeAbsCh (rp.data ++ '/' :: dir.data) := by
    show normalizeAbsCh (normalizeAbsCh ((rp ++ "/" ++ dir).data)) = _
    rw [data_join3]
    exact normalizeAbs_idem _
  rw [hd]
  exact normalizeAbs_form _

theorem showUp_false_iff_data (root dir : String) :
    showUpFlag (mkRootPath root) (posixNormalizeAbs (posixJoin (mkRootPath root) dir)) = false ↔
      (posixNormalizeAbs (posixJoin (mkRootPath root) dir) = mkRootPath root ∨
        posixNormalizeAbs (posixJoin (mkRootPath root) dir) ++ "/" = mkRootPath root) := by
  have hSwf := normSegs_splitSlash_wf root.data
  have hTwf := normSegs_splitSlash_wf
    ((mkRootPath root).data ++ '/' :: dir.data)
  have hcore := showUp_iff_core hSwf hTwf (mkRootPath_data root)
    (path_data_form (mkRootPath root) dir)
  have hflag : showUpFlag (mkRootPath root)
        (posixNormalizeAbs (posixJoin (mkRootPath root) dir)) = false ↔
      posixNormalizeAbs
          (posixResolveAbs (posixNormalizeAbs (posixJoin (mkRootPath root) dir)) ++ "/") =
        mkRootPath root := by
    rw [showUpFlag]
    exact bne_eq_false_iff_eq
  rw [hflag]
  have hdl : (posixNormalizeAbs
        (posixResolveAbs (posixNormalizeAbs (posixJoin (mkRootPath root) dir)) ++ "/")).data
      = normalizeAbsCh
        (resolveAbsCh (posixNormalizeAbs (posixJoin (mkRootPath root) dir)).data ++ ['/']) := by
    rw [data_posixNormalizeAbs, String.data_append, data_posixResolveAbs]
  have e1 : (posixNormalizeAbs
        (posixResolveAbs (posixNormalizeAbs (posixJoin (mkRootPath root) dir)) ++ "/") =
      mkRootPath root) ↔
      ((posixNormalizeAbs (posixJoin (mkRootPath root) dir)).data = (mkRootPath root).data ∨
        (posixNormalizeAbs (posixJoin (mkRootPath root) dir)).data ++ ['/'] =
          (mkRootPath root).data) := by
    rw [String.ext_iff, hdl]
    exact hcore
  have e2a : (posixNormalizeAbs (posixJoin (mkRootPath root) dir) = mkRootPath root) ↔
      (posixNormalizeAbs (posixJoin (mkRootPath root) dir)).data = (mkRootPath root).data :=
    String.ext_iff
  have e2b : (posixNormalizeAbs (posixJoin (mkRootPath root) dir) ++ "/" = mkRootPath root) ↔
      (posixNormalizeAbs (posixJoin (mkRootPath root) dir)).data ++ ['/'] =
        (mkRootPath root).data := by
    rw [String.ext_iff, String.data_append]
  rw [e1, e2a, e2b]

/-! ## Lemmas about statFiles -/

theorem statFiles_ok_spec {statF : String → Except FsErr FileStat} {dir : String} :
    ∀ {files : List String} {res : List (Option FileStat)},
      statFiles statF dir files = .ok res →
      res.length = files.length ∧
        ∀ (i : Nat) (f : String),
          files[i]? = some f → res[i]? = some (statOutcome statF dir f) := by
  intro files
  induction files with
  | nil =>
    intro res h
    simp only [statFiles, Except.ok.injEq] at h
    subst h
    refine ⟨rfl, ?_⟩
    intro i f hf
    simp at hf
  | cons f fs ih =>
    intro res h
    cases hsf : statF (posixJoin dir f) with
    | ok st =>
      cases hrest : statFiles statF dir fs with
      | ok rest =>
        simp only [statFiles, hsf, hrest, Except.ok.injEq] at h
        subst h
        rcases ih hrest with ⟨hl, hp⟩
        refine ⟨by simp [hl], ?_⟩
        intro i g hg
        cases i with
        | zero =>
          simp only [List.getElem?_cons_zero, Option.some.injEq] at hg
          subst hg
          simp [statOutcome, hsf]
        | succ i =>
          simp only [List.getElem?_cons_succ] at hg ⊢
          exact hp i g hg
      | error e =>
        simp only [statFiles, hsf, hrest] at h
        exact Except.noConfusion h
    | error e =>
      by_cases hcode : e.code = "ENOENT"
      · cases hrest : statFiles statF dir fs with
        | ok rest =>
          simp only [statFiles, hsf, hrest, hcode, if_true, Except.ok.injEq] at h
          subst h
          rcases ih hrest with ⟨hl, hp⟩
          refine ⟨by simp [hl], ?_⟩
          intro i g hg
          cases i with
          | zero =>
            simp only [List.getElem?_cons_zero, Option.some.injEq] at hg
            subst hg
            simp [statOutcome, hsf]
          | succ i =>
            simp only [List.getElem?_cons_succ] at hg ⊢
            exact hp i g hg
        | error e2 =>
          simp only [statFiles, hsf, hrest, hcode, if_true] at h
          exact Except.noConfusion h
      · simp only [statFiles, hsf, hcode, if_false] at h
        exact Except.noConfusion h

theorem statFiles_fatal {statF : String → Except FsErr FileStat} {dir : String}
    {f : String} {e : FsErr} (he : statF (posixJoin dir f) = .error e)
    (hne : e.code ≠ "ENOENT") :
    ∀ {files : List String}, f ∈ files →
      ∃ e2, statFiles statF dir files = .error e2 ∧ e2.code ≠ "ENOENT" := by
  intro files
  induction files with
  | nil =>
    intro hf
    cases hf
  | cons g fs ih =>
    intro hf
    rcases List.mem_cons.mp hf with rfl | hf2
    · refine ⟨e, ?_, hne⟩
      simp only [statFiles, he]
      simp [hne]
    · cases hsg : statF (posixJoin dir g) with
      | ok st =>
        rcases ih hf2 with ⟨e2, h2, h2ne⟩
        refine ⟨e2, ?_, h2ne⟩
        simp only [statFiles, hsg, h2]
      | error eg =>
        by_cases hgc : eg.code = "ENOENT"
        · rcases ih hf2 with ⟨e2, h2, h2ne⟩
          refine ⟨e2, ?_, h2ne⟩
          simp only [statFiles, hsg, h2]
          simp [hgc]
        · refine ⟨eg, ?_, hgc⟩
          simp only [statFiles, hsg]
          simp [hgc]

/-! ## Lemmas about the Batch scheduling model -/

theorem batch_invariant {files : List String} {s : BatchState}
    (h : BatchReach 10 (statBatchInit files) s) :
    s.running.length ≤ 10 ∧
      ∀ j, j < files.length →
        s.pending.count j + s.running.count j + s.finished.count j = 1 := by
  induction h with
  | refl =>
    refine ⟨by simp [statBatchInit], ?_⟩
    intro j hj
    simp only [statBatchInit]
    rw [List.count_eq_one_of_mem (List.nodup_range files.length) (List.mem_range.mpr hj)]
    simp
  | tail h1 h2 ih =>
    rcases ih with ⟨ihlen, ihcount⟩
    cases h2 with
    | start j rest r d hlt =>
      constructor
      · simp only [List.length_append, List.length_cons, List.length_nil]
        omega
      · intro x hx
        have hc := ihcount x hx
        simp only [List.count_append, List.count_cons, List.count_nil] at hc ⊢
        omega
    | finish p r1 r2 d j =>
      constructor
      · have h2 : (r1 ++ r2).length ≤ (r1 ++ j :: r2).length := by
          simp only [List.length_append, List.length_cons]
          omega
        exact le_trans h2 ihlen
      · intro x hx
        have hc := ihcount x hx
        simp only [List.count_append, List.count_cons, List.count_nil] at hc ⊢
        omega

/-! ## Lemmas about the listing pipeline -/

theorem mem_applyFilter {p : String → Nat → List String → String → Bool}
    {files : List String} {path : String} {x : String}
    (h : x ∈ applyFilter p files path) : x ∈ files := by
  unfold applyFilter at h
  rcases List.mem_map.mp h with ⟨ie, hie, hx⟩
  have := List.mem_filter.mp hie
  rcases this with ⟨hmem, _⟩
  have h2 := List.mem_enum hmem
  subst hx
  rw [h2.2]
  exact List.getElem_mem h2.1

theorem mem_listFiles {cfg : Config} {files0 : List String} {path : String} {x : String}
    (h : x ∈ listFiles cfg files0 path) : x ∈ files0 := by
  unfold listFiles at h
  have h1 := mem_sortBy.mp h
  have h2 : x ∈ (if cfg.hidden then files0 else removeHidden files0) := by
    cases hf : cfg.filter with
    | none =>
      rw [hf] at h1
      exact h1
    | some p =>
      rw [hf] at h1
      exact mem_applyFilter h1
  by_cases hh : cfg.hidden
  · rw [if_pos hh] at h2
    exact h2
  · rw [if_neg hh] at h2
    exact List.mem_of_mem_filter h2

theorem serveDecoded_json_plain (cfg : Config) (cfs : ConfiguredFS) (env : Env)
    (dir : String) (st : FileStat) (files0 : List String)
    (hnull : hasNull (posixNormalizeAbs (posixJoin cfg.rootPath dir)) = false)
    (hesc : strIsPrefixOf cfg.rootPath
      (posixNormalizeAbs (posixJoin cfg.rootPath dir) ++ "/") = true)
    (hstat : cfs.stat (posixNormalizeAbs (posixJoin cfg.rootPath dir)) = .ok st)
    (hdir : st.isDir = true)
    (hread : cfs.readdir (posixNormalizeAbs (posixJoin cfg.rootPath dir)) = .ok files0) :
    serveDecoded cfg cfs env (some .json) dir =
        .respond "application/json"
          (jsonStringify (listFiles cfg files0
            (posixNormalizeAbs (posixJoin cfg.rootPath dir)))) ∧
      serveDecoded cfg cfs env (some .plain) dir =
        .respond "text/plain"
          (plainBody (listFiles cfg files0
            (posixNormalizeAbs (posixJoin cfg.rootPath dir)))) := by
  constructor <;> simp only [serveDecoded, hnull, hesc, hstat, hdir, hread] <;> simp

/-! ## Claims -/

/-- C1 (counterexample): a request path whose normalized resolution both
escapes the root and carries a NUL byte is answered with the
malformed-request fault 400, not with the root-escape fault 403, because
the NUL check at src/index.js line 128 runs before the prefix check at
line 131.  Concretely, the decoded path `/../x\x00y` resolves to
`/srv/x\x00y`, which is outside `/srv/www/`. -/
theorem c1_counterexample :
    strIsPrefixOf demoCfg.rootPath
        (posixNormalizeAbs (posixJoin demoCfg.rootPath "/../x\x00y") ++ "/") = false ∧
      serveDecoded demoCfg demoFs demoEnv (some .json) "/../x\x00y" = .clientErr 400 ∧
      Outcome.clientErr 400 ≠ Outcome.clientErr 403 :=
  ⟨by decide, by decide, by decide⟩

/-- C1 (amended): for every decoded request path whose normalized
resolution fails the literal string-prefix comparison against the root
(`(path + sep).substr(0, root.length) !== root`, src/index.js line 131)
and contains no NUL byte, the middleware responds with the root-escape
fault 403, regardless of how many traversal segments the path uses; a
NUL-carrying path is instead answered 400 by the preceding check. -/
theorem c1_escape_forbidden (cfg : Config) (cfs : ConfiguredFS) (env : Env)
    (neg : Option Media) (dir : String)
    (hnull : hasNull (posixNormalizeAbs (posixJoin cfg.rootPath dir)) = false)
    (hesc : strIsPrefixOf cfg.rootPath
      (posixNormalizeAbs (posixJoin cfg.rootPath dir) ++ "/") = false) :
    serveDecoded cfg cfs env neg dir = .clientErr 403 := by
  simp only [serveDecoded, hnull, hesc]
  simp

/-- C1 (witness): the traversal request `/../../etc/passwd` against root
`/srv/www` is refused with 403. -/
theorem c1_escape_forbidden_witness :
    serveDecoded demoCfg demoFs demoEnv (some .json) "/../../etc/passwd" = .clientErr 403 :=
  c1_escape_forbidden demoCfg demoFs demoEnv (some .json) "/../../etc/passwd"
    (by decide) (by decide)

/-- C2 (counterexample): for the directory `["sub", "Apple.txt"]` with
`sub` a subdirectory, the JSON response body is the plain lexicographic
order `["Apple.txt","sub"]` produced by `files.sort()`
(src/index.js line 164), not Sorter's directories-first order
`["sub","Apple.txt"]`. -/
theorem c2_counterexample :
    serveDecoded demoCfg demoFs demoEnv (some .json) "/" =
        .respond "application/json" "[\"Apple.txt\",\"sub\"]" ∧
      jsonStringify (sorterOrderNames demoFs.stat "/srv/www/"
          (listFiles demoCfg ["sub", "Apple.txt"] "/srv/www/")) =
        "[\"sub\",\"Apple.txt\"]" ∧
      ("[\"Apple.txt\",\"sub\"]" : String) ≠ "[\"sub\",\"Apple.txt\"]" :=
  ⟨by decide, by decide, by decide⟩

/-- C2 (amended): for every request negotiated to the JSON representation,
the response body is the entry names serialized as a JSON array in the
plain lexicographic order of the pre-metadata `files.sort()`
(`listFiles`); Sorter's metadata-aware order is applied only by the HTML
handler and the two orders differ in general. -/
theorem c2_json_body_lex_order (cfg : Config) (cfs : ConfiguredFS) (env : Env)
    (dir : String) (st : FileStat) (files0 : List String)
    (hnull : hasNull (posixNormalizeAbs (posixJoin cfg.rootPath dir)) = false)
    (hesc : strIsPrefixOf cfg.rootPath
      (posixNormalizeAbs (posixJoin cfg.rootPath dir) ++ "/") = true)
    (hstat : cfs.stat (posixNormalizeAbs (posixJoin cfg.rootPath dir)) = .ok st)
    (hdir : st.isDir = true)
    (hread : cfs.readdir (posixNormalizeAbs (posixJoin cfg.rootPath dir)) = .ok files0) :
    serveDecoded cfg cfs env (some .json) dir =
      .respond "application/json"
        (jsonStringify (listFiles cfg files0
          (posixNormalizeAbs (posixJoin cfg.rootPath dir)))) :=
  (serveDecoded_json_plain cfg cfs env dir st files0 hnull hesc hstat hdir hread).1

/-- C2 (witness): the amended statement at the concrete directory. -/
theorem c2_json_body_lex_order_witness :
    serveDecoded demoCfg demoFs demoEnv (some .json) "/" =
      .respond "application/json"
        (jsonStringify (listFiles demoCfg ["sub", "Apple.txt"]
          (posixNormalizeAbs (posixJoin demoCfg.rootPath "/")))) :=
  c2_json_body_lex_order demoCfg demoFs demoEnv "/" ⟨true, 0, 5⟩ ["sub", "Apple.txt"]
    (by decide) (by decide) rfl rfl rfl

/-- C3: for any entry-name list, a successful `statFiles` aggregation
returns a result of the same length whose element `i` is the metadata of
input name `i` (positional, not completion order), with an `ENOENT`
lookup stored as `null` at its position (`statOutcome`); and any
per-entry failure other than `ENOENT` makes the whole aggregation call
back with a single error. -/
theorem c3_statFiles_positional (statF : String → Except FsErr FileStat)
    (dir : String) (files : List String) :
    (∀ res, statFiles statF dir files = .ok res →
      res.length = files.length ∧
        ∀ (i : Nat) (f : String), files[i]? = some f →
          res[i]? = some (statOutcome statF dir f) ∧
            ∀ e, statF (posixJoin dir f) = .error e → e.code = "ENOENT") ∧
      (∀ (f : String) (e : FsErr), f ∈ files → statF (posixJoin dir f) = .error e →
        e.code ≠ "ENOENT" → ∃ e2, statFiles statF dir files = .error e2) := by
  constructor
  · intro res h
    rcases statFiles_ok_spec h with ⟨hl, hp⟩
    refine ⟨hl, ?_⟩
    intro i f hf
    refine ⟨hp i f hf, ?_⟩
    intro e he
    by_contra hne
    rcases statFiles_fatal he hne (List.getElem?_mem hf) with ⟨e2, h2, _⟩
    rw [h] at h2
    exact Except.noConfusion h2
  · intro f e hf he hne
    rcases statFiles_fatal he hne hf with ⟨e2, h2, _⟩
    exact ⟨e2, h2⟩

/-- C3 (witness): in `/srv/www` the three names `sub`, `Apple.txt` and the
vanished `ghost` stat to directory metadata, file metadata and `null` at
positions 0, 1 and 2; and an `EACCES` lookup aborts the aggregation with
an error. -/
theorem c3_statFiles_positional_witness :
    ([some (FileStat.mk true 0 6), some (FileStat.mk false 3 7), none] :
        List (Option FileStat))[2]? =
        some (statOutcome demoFs.stat "/srv/www/" "ghost") ∧
      ∃ e2, statFiles (constErrFs "EACCES").stat "/srv/www/" ["bad"] = .error e2 := by
  constructor
  · exact (((c3_statFiles_positional demoFs.stat "/srv/www/"
      ["sub", "Apple.txt", "ghost"]).1
      [some ⟨true, 0, 6⟩, some ⟨false, 3, 7⟩, none] rfl).2 2 "ghost" rfl).1
  · exact (c3_statFiles_positional (constErrFs "EACCES").stat "/srv/www/" ["bad"]).2
      "bad" ⟨"EACCES"⟩ (by decide) rfl (by decide)

/-- C4: the `fileSort` comparator imposes a total preorder on entries: an
entry named `..` sorts before every other entry and two `..` entries
compare equal; otherwise directory entries (missing metadata counts as
not a directory) sort before non-directories; remaining ties compare the
lowercased names (`localeCompare`); the induced relation is total and
transitive; and the stable sort keeps comparator-equal entries — in
particular equal names — in their original relative order. -/
theorem c4_fileSort_total_preorder :
    (∀ a b : Entry, a.name = ".." → b.name ≠ ".." → fileSort a b = -1) ∧
      (∀ a b : Entry, a.name = ".." → b.name = ".." → fileSort a b = 0) ∧
      (∀ e : Entry, e.stat = none → entryIsDir e = false) ∧
      (∀ a b : Entry, a.name ≠ ".." → b.name ≠ ".." →
        entryIsDir a = true → entryIsDir b = false → fileSort a b = -1) ∧
      (∀ a b : Entry, a.name ≠ ".." → b.name ≠ ".." → entryIsDir a = entryIsDir b →
        fileSort a b = localeCompare (toLowerStr a.name) (toLowerStr b.name)) ∧
      (∀ a b : Entry, fileSortLe a b = true ∨ fileSortLe b a = true) ∧
      (∀ a b c : Entry, fileSortLe a b = true → fileSortLe b c = true →
        fileSortLe a c = true) ∧
      (∀ (l : List Entry) (a b : Entry), fileSort a b = 0 → [a, b].Sublist l →
        [a, b].Sublist (sortEntries l)) := by
  refine ⟨?_, ?_, ?_, ?_, ?_, ?_, ?_, ?_⟩
  · intro a b ha hb
    exact fileSort_dotdot_left ha hb
  · intro a b ha hb
    exact fileSort_dotdot_both ha hb
  · intro e he
    simp [entryIsDir, he]
  · intro a b ha hb hda hdb
    exact fileSort_dir_first ha hb hda hdb
  · intro a b ha hb hd
    exact fileSort_same_kind ha hb hd
  · intro a b
    exact fileSort_total a b
  · intro a b c h1 h2
    exact fileSort_trans h1 h2
  · intro l a b h0 hsub
    apply sortBy_stable_pair
    · simp [fileSortLe, h0]
    · exact hsub

/-- C4 (witness): a `..` entry sorts strictly before a directory entry. -/
theorem c4_fileSort_total_preorder_witness :
    fileSort ⟨"..", none⟩ ⟨"a", some ⟨true, 0, 0⟩⟩ = -1 :=
  c4_fileSort_total_preorder.1 ⟨"..", none⟩ ⟨"a", some ⟨true, 0, 0⟩⟩ rfl (by decide)

/-- C5: once the request path has passed the NUL and prefix checks, the
outcome of the `stat` of the resolved path is dispatched exactly as the
claim states (src/index.js lines 142-154): `ENOENT` and a non-directory
target pass control onward with no error; `ENAMETOOLONG` fails the
request with the distinguished status 414; any other stat failure fails
it with status 500, preserving the original error value. -/
theorem c5_stat_error_dispatch (cfg : Config) (cfs : ConfiguredFS) (env : Env)
    (neg : Option Media) (dir : String)
    (hnull : hasNull (posixNormalizeAbs (posixJoin cfg.rootPath dir)) = false)
    (hesc : strIsPrefixOf cfg.rootPath
      (posixNormalizeAbs (posixJoin cfg.rootPath dir) ++ "/") = true) :
    (∀ e : FsErr, cfs.stat (posixNormalizeAbs (posixJoin cfg.rootPath dir)) = .error e →
      e.code = "ENOENT" → serveDecoded cfg cfs env neg dir = .pass) ∧
      (∀ st : FileStat, cfs.stat (posixNormalizeAbs (posixJoin cfg.rootPath dir)) = .ok st →
        st.isDir = false → serveDecoded cfg cfs env neg dir = .pass) ∧
      (∀ e : FsErr, cfs.stat (posixNormalizeAbs (posixJoin cfg.rootPath dir)) = .error e →
        e.code = "ENAMETOOLONG" → serveDecoded cfg cfs env neg dir = .statErr 414 e) ∧
      (∀ e : FsErr, cfs.stat (posixNormalizeAbs (posixJoin cfg.rootPath dir)) = .error e →
        e.code ≠ "ENOENT" → e.code ≠ "ENAMETOOLONG" →
          serveDecoded cfg cfs env neg dir = .statErr 500 e) := by
  refine ⟨?_, ?_, ?_, ?_⟩
  · intro e he hcode
    simp only [serveDecoded, hnull, hesc, he, hcode]
    simp
  · intro st hst hdir
    simp only [serveDecoded, hnull, hesc, hst, hdir]
    simp
  · intro e he hcode
    simp only [serveDecoded, hnull, hesc, he, hcode]
    simp
  · intro e he hne1 hne2
    simp only [serveDecoded, hnull, hesc, he, if_neg hne1, if_neg hne2]
    simp

/-- C5 (witness): the four stat outcomes at concrete filesystems: a
missing root passes onward, a file target passes onward, an over-length
path yields 414, and an `EIO` failure yields 500 with the error kept. -/
theorem c5_stat_error_dispatch_witness :
    serveDecoded demoCfg (constErrFs "ENOENT") demoEnv (some .json) "/" = .pass ∧
      serveDecoded demoCfg fileOnlyFs demoEnv (some .json) "/" = .pass ∧
      serveDecoded demoCfg (constErrFs "ENAMETOOLONG") demoEnv (some .json) "/" =
        .statErr 414 ⟨"ENAMETOOLONG"⟩ ∧
      serveDecoded demoCfg (constErrFs "EIO") demoEnv (some .json) "/" =
        .statErr 500 ⟨"EIO"⟩ := by
  refine ⟨?_, ?_, ?_, ?_⟩
  · exact (c5_stat_error_dispatch demoCfg (constErrFs "ENOENT") demoEnv (some .json) "/"
      (by decide) (by decide)).1 ⟨"ENOENT"⟩ rfl rfl
  · exact (c5_stat_error_dispatch demoCfg fileOnlyFs demoEnv (some .json) "/"
      (by decide) (by decide)).2.1 ⟨false, 1, 1⟩ rfl rfl
  · exact (c5_stat_error_dispatch demoCfg (constErrFs "ENAMETOOLONG") demoEnv (some .json) "/"
      (by decide) (by decide)).2.2.1 ⟨"ENAMETOOLONG"⟩ rfl rfl
  · exact (c5_stat_error_dispatch demoCfg (constErrFs "EIO") demoEnv (some .json) "/"
      (by decide) (by decide)).2.2.2 ⟨"EIO"⟩ rfl (by decide) (by decide)

/-- C6: spec-modelled scheduling contract of the `Batch` dependency used
by `statFiles` with `batch.concurrency(10)` (src/index.js lines 519-536):
from the initial state with one queued lookup per entry, every reachable
state has at most 10 lookups in flight — a lookup starts only while a
slot is free — and each entry's lookup occurs exactly once across the
queued, running and finished lists. -/
theorem c6_concurrency_bound (files : List String) (s : BatchState)
    (h : BatchReach 10 (statBatchInit files) s) :
    s.running.length ≤ 10 ∧
      ∀ j, j < files.length →
        s.pending.count j + s.running.count j + s.finished.count j = 1 :=
  batch_invariant h

/-- C6 (witness): after starting the single lookup of a one-entry
directory, one lookup is in flight and the bound holds. -/
theorem c6_concurrency_bound_witness :
    (BatchState.mk [] [0] []).running.length ≤ 10 ∧
      ∀ j, j < (["a"] : List String).length →
        (BatchState.mk [] [0] []).pending.count j +
            (BatchState.mk [] [0] []).running.count j +
            (BatchState.mk [] [0] []).finished.count j = 1 :=
  c6_concurrency_bound ["a"] (BatchState.mk [] [0] [])
    (Relation.ReflTransGen.single (BatchStep.start 0 [] [] [] (by norm_num)))

/-- C7: the computed `showUp` flag is the literal inequality
`normalize(resolve(path) + sep) !== rootPath` (src/index.js line 137),
and for an absolute configured root it is `false` exactly when the
resolved request path is the root directory — equal to the root path
either as stored (with its trailing separator) or after appending the
separator. -/
theorem c7_showUp_iff_root (root dir : String) (habs : root.data.head? = some '/') :
    (∀ q : String, showUpFlag (mkRootPath root) q =
        (posixNormalizeAbs (posixResolveAbs q ++ "/") != mkRootPath root)) ∧
      (showUpFlag (mkRootPath root)
          (posixNormalizeAbs (posixJoin (mkRootPath root) dir)) = false ↔
        (posixNormalizeAbs (posixJoin (mkRootPath root) dir) = mkRootPath root ∨
          posixNormalizeAbs (posixJoin (mkRootPath root) dir) ++ "/" = mkRootPath root)) :=
  ⟨fun _ => rfl, showUp_false_iff_data root dir⟩

/-- C7 (witness): requesting `/` under root `/srv/www` resolves to the
root itself and the parent entry is not offered. -/
theorem c7_showUp_iff_root_witness :
    showUpFlag (mkRootPath "/srv/www")
      (posixNormalizeAbs (posixJoin (mkRootPath "/srv/www") "/")) = false :=
  (c7_showUp_iff_root "/srv/www" "/" (by decide)).2.mpr (Or.inl (by decide))

/-- C8: the request URL `/%zz` carries an invalid percent-encoding, so
`decodeURIComponent` (src/index.js line 121) throws a `URIError`
synchronously — for every configuration, filesystem, environment and
negotiation result the handler ends in the thrown-exception outcome
before any filesystem access, producing no fault response and passing no
error to the next handler. -/
theorem c8_bad_percent_throws (cfg : Config) (cfs : ConfiguredFS) (env : Env)
    (neg : Option Media) :
    serveGet cfg cfs env neg "/%zz" = .error .uriError ∧
      ∀ out : Outcome, serveGet cfg cfs env neg "/%zz" ≠ .ok out := by
  constructor
  · rfl
  · intro out h
    exact Except.noConfusion h

/-- C9: the parent entry is prepended only by the HTML handler
(`htmlFiles`, src/index.js lines 193-195): when the directory listing
contains no `..` name (as `readdir` guarantees), the list that the plain
and JSON handlers serialize never contains a `..` entry, even when
`showUp` is true, while the HTML handler's list starts with `..`. -/
theorem c9_parent_entry_only_html (cfg : Config) (cfs : ConfiguredFS) (env : Env)
    (dir : String) (st : FileStat) (files0 : List String)
    (hnull : hasNull (posixNormalizeAbs (posixJoin cfg.rootPath dir)) = false)
    (hesc : strIsPrefixOf cfg.rootPath
      (posixNormalizeAbs (posixJoin cfg.rootPath dir) ++ "/") = true)
    (hstat : cfs.stat (posixNormalizeAbs (posixJoin cfg.rootPath dir)) = .ok st)
    (hdir : st.isDir = true)
    (hread : cfs.readdir (posixNormalizeAbs (posixJoin cfg.rootPath dir)) = .ok files0)
    (hdd : ".." ∉ files0) :
    ".." ∉ listFiles cfg files0 (posixNormalizeAbs (posixJoin cfg.rootPath dir)) ∧
      serveDecoded cfg cfs env (some .json) dir =
        .respond "application/json"
          (jsonStringify (listFiles cfg files0
            (posixNormalizeAbs (posixJoin cfg.rootPath dir)))) ∧
      serveDecoded cfg cfs env (some .plain) dir =
        .respond "text/plain"
          (plainBody (listFiles cfg files0
            (posixNormalizeAbs (posixJoin cfg.rootPath dir)))) ∧
      ∀ files : List String, htmlFiles true files = ".." :: files := by
  rcases serveDecoded_json_plain cfg cfs env dir st files0 hnull hesc hstat hdir hread with
    ⟨hj, hp⟩
  refine ⟨?_, hj, hp, ?_⟩
  · intro hmem
    exact hdd (mem_listFiles hmem)
  · intro files
    rfl

/-- C9 (witness): the concrete directory has no `..` in its serialized
list and the JSON response is that list's serialization. -/
theorem c9_parent_entry_only_html_witness :
    ".." ∉ listFiles demoCfg ["sub", "Apple.txt"]
        (posixNormalizeAbs (posixJoin demoCfg.rootPath "/")) ∧
      htmlFiles true ["sub", "Apple.txt"] = ".." :: ["sub", "Apple.txt"] := by
  have h := c9_parent_entry_only_html demoCfg demoFs demoEnv "/" ⟨true, 0, 5⟩
    ["sub", "Apple.txt"] (by decide) (by decide) rfl rfl rfl (by decide)
  exact ⟨h.1, h.2.2.2 ["sub", "Apple.txt"]⟩

/-- C10: the middleware invokes only the `stat` and `readdir` operations
of the configured filesystem object; the stylesheet, template and icon
assets are read through the process-native module (`env`).  Hence any two
configured filesystem objects agreeing on `stat` and `readdir` produce
identical behaviour for every request, even when their `readFile`
operations differ. -/
theorem c10_fs_behaviour_stat_readdir (cfg : Config) (env : Env) (neg : Option Media)
    (pathname : String) (fs1 fs2 : ConfiguredFS)
    (hstat : fs1.stat = fs2.stat) (hread : fs1.readdir = fs2.readdir) :
    serveGet cfg fs1 env neg pathname = serveGet cfg fs2 env neg pathname := by
  obtain ⟨s1, r1, f1⟩ := fs1
  obtain ⟨s2, r2, f2⟩ := fs2
  simp only at hstat hread
  subst hstat
  subst hread
  unfold serveGet serveDecoded htmlHandler
  rfl

/-- C10 (witness): `demoFs` and a copy with a different `readFile` answer
a request identically. -/
theorem c10_fs_behaviour_stat_readdir_witness :
    serveGet demoCfg demoFs demoEnv (some .html) "/" =
      serveGet demoCfg ⟨demoFs.stat, demoFs.readdir, fun _ => .ok "other"⟩ demoEnv
        (some .html) "/" :=
  c10_fs_behaviour_stat_readdir demoCfg demoEnv (some .html) "/" demoFs
    ⟨demoFs.stat, demoFs.readdir, fun _ => .ok "other"⟩ rfl rfl

end ServeIdx
